import Mathlib

/-!
Verification of the 2D path-geometry kernel of the nabla repository
(`src/scripts/path_tools.py`).

The Python data model is embedded shallowly:
  machine floats are idealised as elements of a linear ordered field `K`
  (instantiated with the rationals for concrete computations and with the
  reals for the operations that use trigonometry or square roots);
  Python lists become Lean lists; operations that can raise
  `IndexError` or `AssertionError` become `Option` or `Except String`
  valued functions.

External fontTools helpers (`calcBounds`, `calcCubicParameters`,
`solveQuadratic`, `splitCubicAtT`, `Transform`) are not part of the
repository; they are modelled from the spec, as noted in their doc
comments.
-/

namespace PathTools

/-- A 2D point, modelling the Python coordinate tuples of path_tools.py. -/
abbrev Point (K : Type) := K × K

/-- Bounding box record from path_tools.py, a tuple (xMin, yMin, xMax, yMax). -/
structure BoundingBox (K : Type) where
  xMin : K
  yMin : K
  xMax : K
  yMax : K
deriving DecidableEq

/-- Modelled from the spec: fontTools affine Transform value, a 2x3 matrix
(xx, xy, yx, yy, dx, dy); transformPoint maps (x, y) to
(xx*x + yx*y + dx, xy*x + yy*y + dy). -/
structure Affine (K : Type) where
  xx : K
  xy : K
  yx : K
  yy : K
  dx : K
  dy : K
deriving DecidableEq

/-- Point mapping of a fontTools affine transform. -/
def Affine.transformPoint {K : Type} [LinearOrderedField K] (t : Affine K) (p : Point K) :
    Point K :=
  (t.xx * p.1 + t.yx * p.2 + t.dx, t.xy * p.1 + t.yy * p.2 + t.dy)

/-- Modelled from the spec: fontTools calcBounds, the axis-aligned bounding
box of a list of points; the empty list yields (0, 0, 0, 0). -/
def calcBounds {K : Type} [LinearOrderedField K] : List (Point K) → BoundingBox K
  | [] => ⟨0, 0, 0, 0⟩
  | p :: ps =>
      ps.foldl
        (fun bb q => ⟨min bb.xMin q.1, min bb.yMin q.2, max bb.xMax q.1, max bb.yMax q.2⟩)
        ⟨p.1, p.2, p.1, p.2⟩

/-- Segment from path_tools.py: an ordered list of points
(2 for a line, 4 for a cubic curve). -/
structure Segment (K : Type) where
  points : List (Point K)
deriving DecidableEq

/-- Segment.reverse from path_tools.py. -/
def Segment.reverse {K : Type} (s : Segment K) : Segment K :=
  ⟨s.points.reverse⟩

/-- Segment.translate from path_tools.py. -/
def Segment.translate {K : Type} [LinearOrderedField K] (s : Segment K) (dx dy : K) :
    Segment K :=
  ⟨s.points.map (fun p => (p.1 + dx, p.2 + dy))⟩

/-- Segment.transform from path_tools.py. -/
def Segment.transform {K : Type} [LinearOrderedField K] (s : Segment K) (t : Affine K) :
    Segment K :=
  ⟨s.points.map t.transformPoint⟩

/-- Linear interpolation between two points at parameter t. -/
def lerp {K : Type} [LinearOrderedField K] (p q : Point K) (t : K) : Point K :=
  (p.1 + t * (q.1 - p.1), p.2 + t * (q.2 - p.2))

/-- Modelled from the spec: fontTools splitCubicAtT, de Casteljau subdivision
of a cubic Bezier at parameter t, yielding the two half curves. -/
def splitCubicAtT {K : Type} [LinearOrderedField K] (p1 p2 p3 p4 : Point K) (t : K) :
    List (Point K) × List (Point K) :=
  let p12 := lerp p1 p2 t
  let p23 := lerp p2 p3 t
  let p34 := lerp p3 p4 t
  let p123 := lerp p12 p23 t
  let p234 := lerp p23 p34 t
  let p1234 := lerp p123 p234 t
  ([p1, p12, p123, p1234], [p1234, p234, p34, p4])

/-- Segment.splitAtT from path_tools.py: linear interpolation for a 2-point
line, de Casteljau subdivision for a 4-point cubic.  Any other arity
violates the data-model invariant (the Python asserts); the segment is
returned unchanged in that unreachable case. -/
def Segment.splitAtT {K : Type} [LinearOrderedField K] (s : Segment K) (t : K) :
    Segment K × Segment K :=
  match s.points with
  | [p1, p2] =>
      let x := p1.1 + t * (p2.1 - p1.1)
      let y := p1.2 + t * (p2.2 - p1.2)
      (⟨[p1, (x, y)]⟩, ⟨[(x, y), p2]⟩)
  | [p1, p2, p3, p4] =>
      let pr := splitCubicAtT p1 p2 p3 p4 t
      (⟨pr.1⟩, ⟨pr.2⟩)
  | ps => (⟨ps⟩, ⟨ps⟩)

/-- Segment.controlBounds from path_tools.py. -/
def Segment.controlBounds {K : Type} [LinearOrderedField K] (s : Segment K) :
    BoundingBox K :=
  calcBounds s.points

/-- Contour from path_tools.py: an ordered list of segments plus a closed flag. -/
structure Contour (K : Type) where
  segments : List (Segment K)
  closed : Bool
deriving DecidableEq

/-- Contour.translate from path_tools.py. -/
def Contour.translate {K : Type} [LinearOrderedField K] (c : Contour K) (dx dy : K) :
    Contour K :=
  ⟨c.segments.map (fun s => s.translate dx dy), c.closed⟩

/-- Contour.transform from path_tools.py. -/
def Contour.transform {K : Type} [LinearOrderedField K] (c : Contour K) (t : Affine K) :
    Contour K :=
  ⟨c.segments.map (fun s => s.transform t), c.closed⟩

/-- Contour.reverse from path_tools.py: reverses the segment order and each
segment, keeping the closed flag. -/
def Contour.reverse {K : Type} (c : Contour K) : Contour K :=
  ⟨(c.segments.reverse).map Segment.reverse, c.closed⟩

/-- Contour.controlBounds from path_tools.py: bounding box over all control
points, or none for an empty contour. -/
def Contour.controlBounds {K : Type} [LinearOrderedField K] (c : Contour K) :
    Option (BoundingBox K) :=
  match c.segments.flatMap Segment.points with
  | [] => none
  | ps => some (calcBounds ps)

/-- Path from path_tools.py: an ordered list of contours. -/
structure Path (K : Type) where
  contours : List (Contour K)
deriving DecidableEq

/-- Path.translate from path_tools.py. -/
def Path.translate {K : Type} [LinearOrderedField K] (p : Path K) (dx dy : K) : Path K :=
  ⟨p.contours.map (fun c => c.translate dx dy)⟩

/-- Path.transform from path_tools.py. -/
def Path.transform {K : Type} [LinearOrderedField K] (p : Path K) (t : Affine K) : Path K :=
  ⟨p.contours.map (fun c => c.transform t)⟩

/-- Path.append from path_tools.py. -/
def Path.append {K : Type} (p : Path K) (c : Contour K) : Path K :=
  ⟨p.contours ++ [c]⟩

/-- whichSide from path_tools.py: the 2D cross product x1*y2 - y1*x2. -/
def whichSide {K : Type} [LinearOrderedField K] (v1 v2 : Point K) : K :=
  v1.1 * v2.2 - v1.2 * v2.1

/-- Python math.isclose with abs_tol 1e-5 and the default rel_tol 1e-9,
as used by the pointsEqual helper of path_tools.py. -/
def isclose {K : Type} [LinearOrderedField K] (x1 x2 : K) : Bool :=
  if |x1 - x2| ≤ max ((1 / 1000000000) * max |x1| |x2|) (1 / 100000) then true else false

/-- Coordinatewise approximate point equality of path_tools.py. -/
def pointsEqual {K : Type} [LinearOrderedField K] (pt1 pt2 : Point K) : Bool :=
  isclose pt1.1 pt2.1 && isclose pt1.2 pt2.2

/-- Drawing commands of the external pen interface consumed and produced by
the kernel (moveTo, lineTo, curveTo, closePath, endPath). -/
inductive Cmd (K : Type) where
  | moveTo (pt : Point K)
  | lineTo (pt : Point K)
  | curveTo (p2 p3 p4 : Point K)
  | closePath
  | endPath
deriving DecidableEq

/-- Contour.closePath from path_tools.py: appends a closing line segment when
the first and last points differ, then sets the closed flag.  Returns none
when the contour is empty (the Python raises IndexError there). -/
def Contour.closePath {K : Type} [LinearOrderedField K] (c : Contour K) :
    Option (Contour K) := do
  let s0 ← c.segments.head?
  let firstPoint ← s0.points.head?
  let sl ← c.segments.getLast?
  let lastPoint ← sl.points.getLast?
  let segs := if firstPoint ≠ lastPoint
    then c.segments ++ [⟨[lastPoint, firstPoint]⟩] else c.segments
  some ⟨segs, true⟩

/-- Path.appendSegment from path_tools.py: appends a segment to the last
contour; none when the path has no contour (Python IndexError). -/
def Path.appendSegment {K : Type} (p : Path K) (s : Segment K) : Option (Path K) :=
  match p.contours.getLast? with
  | none => none
  | some c => some ⟨p.contours.dropLast ++ [⟨c.segments ++ [s], c.closed⟩]⟩

/-- Path.closePath from path_tools.py: closes the last contour. -/
def Path.closePath {K : Type} [LinearOrderedField K] (p : Path K) : Option (Path K) :=
  match p.contours.getLast? with
  | none => none
  | some c => do
      let c' ← c.closePath
      some ⟨p.contours.dropLast ++ [c']⟩

/-- State of PathBuilderPen from path_tools.py: the path built so far and the
pen's current point. -/
structure PathBuilderPen (K : Type) where
  path : Path K
  currentPoint : Option (Point K)

/-- Initial PathBuilderPen state. -/
def PathBuilderPen.init {K : Type} : PathBuilderPen K := ⟨⟨[]⟩, none⟩

/-- One drawing command processed by PathBuilderPen: moveTo starts a new empty
contour, lineTo and curveTo append a segment from the current point, closePath
closes the last contour (the pen's own current point is left unchanged, as in
the Python), endPath is a no-op.  none models the IndexError raised on a
malformed sequence, for example lineTo before any moveTo. -/
def PathBuilderPen.step {K : Type} [LinearOrderedField K] (pen : PathBuilderPen K) :
    Cmd K → Option (PathBuilderPen K)
  | .moveTo pt => some ⟨pen.path.append ⟨[], false⟩, some pt⟩
  | .lineTo pt => do
      let cur ← pen.currentPoint
      let path' ← pen.path.appendSegment ⟨[cur, pt]⟩
      some ⟨path', some pt⟩
  | .curveTo p2 p3 p4 => do
      let cur ← pen.currentPoint
      let path' ← pen.path.appendSegment ⟨[cur, p2, p3, p4]⟩
      some ⟨path', some p4⟩
  | .closePath => do
      let path' ← pen.path.closePath
      some ⟨path', pen.currentPoint⟩
  | .endPath => some pen

/-- Feeding a command stream into PathBuilderPen and returning the built path. -/
def buildPath {K : Type} [LinearOrderedField K] (cmds : List (Cmd K)) : Option (Path K) :=
  (cmds.foldlM PathBuilderPen.step PathBuilderPen.init).map PathBuilderPen.path

/-- Replay of one segment in Contour.draw from path_tools.py: a 2-point
segment emits lineTo, a 4-point segment emits curveTo; any other arity
violates the assert in the Python draw. -/
def Segment.drawCmd {K : Type} (s : Segment K) : Option (Cmd K) :=
  match s.points with
  | [_, p] => some (.lineTo p)
  | [_, p2, p3, p4] => some (.curveTo p2 p3 p4)
  | _ => none

/-- Contour.draw from path_tools.py: moveTo to the first point, one command
per segment, then closePath or endPath according to the closed flag. -/
def Contour.draw {K : Type} (c : Contour K) : Option (List (Cmd K)) := do
  let s0 ← c.segments.head?
  let p0 ← s0.points.head?
  let body ← c.segments.mapM Segment.drawCmd
  some (Cmd.moveTo p0 :: (body ++ [if c.closed then Cmd.closePath else Cmd.endPath]))

/-- Path.draw from path_tools.py: draws every contour in order. -/
def Path.draw {K : Type} (p : Path K) : Option (List (Cmd K)) := do
  let ls ← p.contours.mapM Contour.draw
  some ls.flatten

/-- One pen stroke of a contour description: a line or a cubic curve. -/
inductive PenOp (K : Type) where
  | line (pt : Point K)
  | curve (p2 p3 p4 : Point K)
deriving DecidableEq

/-- Drawing command emitted for a pen stroke. -/
def PenOp.cmd {K : Type} : PenOp K → Cmd K
  | .line pt => .lineTo pt
  | .curve p2 p3 p4 => .curveTo p2 p3 p4

/-- End point of a pen stroke. -/
def PenOp.endPoint {K : Type} : PenOp K → Point K
  | .line pt => pt
  | .curve _ _ p4 => p4

/-- Description of the command block of one contour: a start point, a
nonempty run of strokes and a terminator (closePath or endPath). -/
structure ContourCmds (K : Type) where
  start : Point K
  ops : List (PenOp K)
  closed : Bool
deriving DecidableEq

/-- Command sequence of one contour block. -/
def ContourCmds.cmds {K : Type} (d : ContourCmds K) : List (Cmd K) :=
  Cmd.moveTo d.start :: (d.ops.map PenOp.cmd ++
    [if d.closed then Cmd.closePath else Cmd.endPath])

/-- End point reached after drawing all strokes of the block. -/
def ContourCmds.endPoint {K : Type} (d : ContourCmds K) : Point K :=
  ((d.ops.map PenOp.endPoint).getLastD d.start)

/-- Well-formed contour block: at least one stroke, and a closed block
explicitly returns to its start point before closePath. -/
def ContourCmds.WellFormed {K : Type} (d : ContourCmds K) : Prop :=
  d.ops ≠ [] ∧ (d.closed = true → d.endPoint = d.start)

/-- Segments traced by a run of strokes starting from a current point. -/
def segmentsOf {K : Type} (cur : Point K) : List (PenOp K) → List (Segment K)
  | [] => []
  | .line pt :: rest => ⟨[cur, pt]⟩ :: segmentsOf pt rest
  | .curve p2 p3 p4 :: rest => ⟨[cur, p2, p3, p4]⟩ :: segmentsOf p4 rest

/-- Contour built from one well-formed contour block. -/
def ContourCmds.contour {K : Type} (d : ContourCmds K) : Contour K :=
  ⟨segmentsOf d.start d.ops, d.closed⟩

/-- rectsOverlapVertically from path_tools.py. -/
def rectsOverlapVertically {K : Type} [LinearOrderedField K] (r1 r2 : BoundingBox K) : Bool :=
  if max r1.yMin r2.yMin < min r1.yMax r2.yMax then true else false

/-- rectsOverlapHorizontally from path_tools.py. -/
def rectsOverlapHorizontally {K : Type} [LinearOrderedField K] (r1 r2 : BoundingBox K) : Bool :=
  if max r1.xMin r2.xMin < min r1.xMax r2.xMax then true else false

/-- rectsOverlap from path_tools.py. -/
def rectsOverlap {K : Type} [LinearOrderedField K] (r1 r2 : BoundingBox K) : Bool :=
  rectsOverlapVertically r1 r2 && rectsOverlapHorizontally r1 r2

/-- horizontalOrderRect from path_tools.py: a directional verdict in
-1, 0, 1 for two bounding boxes. -/
def horizontalOrderRect {K : Type} [LinearOrderedField K] (r1 r2 : BoundingBox K) : Int :=
  if rectsOverlapVertically r1 r2 then
    if r1.xMax ≤ r2.xMin then -1
    else if r1.xMin ≥ r2.xMax then 1
    else 0
  else 0

/-- First nonzero verdict of a list, 0 when none, modelling the Python
short-circuiting return in a loop over candidate verdicts. -/
def firstNonzeroInt (l : List Int) : Int :=
  (l.find? (fun v => decide (v ≠ 0))).getD 0

/-- horizontalOrderSegment from path_tools.py.  The Python counts the
recursion level down from 4 and answers 0 once the level drops below 0; the
fuel argument here is that level plus one, so the top-level call uses 5. -/
def horizontalOrderSegment {K : Type} [LinearOrderedField K] :
    ℕ → Segment K → Segment K → Int
  | 0, _, _ => 0
  | fuel + 1, s1, s2 =>
      let b1 := s1.controlBounds
      let b2 := s2.controlBounds
      let ho := horizontalOrderRect b1 b2
      if ho ≠ 0 then ho
      else if rectsOverlap b1 b2 then
        let s1p := s1.splitAtT (1 / 2)
        let s2p := s2.splitAtT (1 / 2)
        let pairs := [(s1p.1, s2p.1), (s1p.1, s2p.2), (s1p.2, s2p.1), (s1p.2, s2p.2)]
        match (pairs.map
            (fun q => horizontalOrderRect q.1.controlBounds q.2.controlBounds)).find?
            (fun v => decide (v ≠ 0)) with
        | some v => v
        | none =>
            let overlaps := pairs.filter
              (fun q => rectsOverlap q.1.controlBounds q.2.controlBounds)
            firstNonzeroInt (overlaps.map (fun q => horizontalOrderSegment fuel q.1 q.2))
      else 0

/-- horizontalOrderContour from path_tools.py: the bounding box verdict when
decisive, otherwise the first decisive segment-pair verdict; empty contours
have no bounds and are unreachable in the Python (it would raise). -/
def horizontalOrderContour {K : Type} [LinearOrderedField K] (c1 c2 : Contour K) : Int :=
  match c1.controlBounds, c2.controlBounds with
  | some b1, some b2 =>
      let ho := horizontalOrderRect b1 b2
      if ho ≠ 0 then ho
      else if rectsOverlap b1 b2 then
        firstNonzeroInt
          ((c1.segments.flatMap (fun s1 => c2.segments.map (fun s2 => (s1, s2)))).map
            (fun q => horizontalOrderSegment 5 q.1 q.2))
      else 0
  | _, _ => 0

/-- Sorted insertion of a natural number, used to model the Python sorted
builtin. -/
def insertSorted (x : ℕ) : List ℕ → List ℕ
  | [] => [x]
  | y :: ys => if x ≤ y then x :: y :: ys else y :: insertSorted x ys

/-- Models the Python sorted builtin: ascending insertion sort. -/
def sortNats (l : List ℕ) : List ℕ :=
  l.foldr insertSorted []

/-- Preparation step of topologicalSort from path_tools.py: items that occur
only as dependencies are added as keys with no dependencies. -/
def topoPrep (data : List (ℕ × List ℕ)) : List (ℕ × List ℕ) :=
  let keys := data.map Prod.fst
  let extra := ((data.flatMap Prod.snd).filter (fun j => decide (j ∉ keys))).dedup
  data ++ extra.map (fun j => (j, ([] : List ℕ)))

/-- Ready set of one iteration of topologicalSort from path_tools.py: the
sorted list of items with no outstanding dependency. -/
def readySet (data : List (ℕ × List ℕ)) : List ℕ :=
  sortNats ((data.filter (fun p => p.2.isEmpty)).map Prod.fst)

/-- Remaining data after one iteration of topologicalSort from path_tools.py:
ready items are removed as keys and subtracted from every dependency set. -/
def nextData (data : List (ℕ × List ℕ)) : List (ℕ × List ℕ) :=
  (data.filter (fun p => decide (p.1 ∉ readySet data))).map
    (fun p => (p.1, p.2.filter (fun j => decide (j ∉ readySet data))))

/-- Loop of topologicalSort from path_tools.py: repeatedly emit the sorted
set of items with no outstanding dependency and remove them; stop when no
item is ready.  The Python while loop terminates in at most one iteration
per item, so the fuel below suffices; fuel 0 is unreachable. -/
def topoLoop : ℕ → List (ℕ × List ℕ) → List (List ℕ)
  | 0, _ => []
  | fuel + 1, data =>
      let ordered := readySet data
      if ordered.isEmpty then []
      else ordered :: topoLoop fuel (nextData data)

/-- topologicalSort from path_tools.py: dependency map to ordered batches. -/
def topologicalSort (data : List (ℕ × List ℕ)) : List (List ℕ) :=
  let data2 := topoPrep data
  topoLoop (data2.length + 1) data2

/-- Ordered index pairs (i, j) with i smaller than j, in the enumeration
order of the nested Python loops of sortContours. -/
def allPairs (n : ℕ) : List (ℕ × ℕ) :=
  (List.range n).flatMap
    (fun i => (List.range n).filterMap (fun j => if i < j then some (i, j) else none))

/-- Dependency map of sortContours from path_tools.py: key i maps to the set
of indices j recorded by comparisons (i, j); indices without comparisons get
an empty set.  The Python defaultdict of sets over arbitrary insertion order
is modelled as an association list over the index range, which topoLoop
treats identically. -/
def buildDeps (n : ℕ) (comparisons : List (ℕ × ℕ)) : List (ℕ × List ℕ) :=
  (List.range n).map
    (fun i => (i, (comparisons.filter (fun p => decide (p.1 = i))).map Prod.snd))

/-- Directed comparisons of sortContours from path_tools.py: the verdict of
horizontalOrderContour on every transformed pair, oriented so that a -1
verdict keeps (i, j) and any other nonzero verdict swaps to (j, i). -/
def sortComparisons {K : Type} [LinearOrderedField K] (contours : List (Contour K))
    (t : Affine K) : List (ℕ × ℕ) :=
  let ct := contours.map (fun c => c.transform t)
  ((allPairs contours.length).map
      (fun p => (p.1, p.2,
        horizontalOrderContour (ct.getD p.1 ⟨[], false⟩) (ct.getD p.2 ⟨[], false⟩)))).filterMap
    (fun q => if q.2.2 = 0 then none
      else if q.2.2 = -1 then some (q.1, q.2.1) else some (q.2.1, q.1))

/-- Dependency map computed by sortContours from path_tools.py. -/
def sortDeps {K : Type} [LinearOrderedField K] (contours : List (Contour K))
    (t : Affine K) : List (ℕ × List ℕ) :=
  buildDeps contours.length (sortComparisons contours t)

/-- Flattened index order produced by sortContours from path_tools.py. -/
def sortContoursIndices {K : Type} [LinearOrderedField K] (contours : List (Contour K))
    (t : Affine K) : List ℕ :=
  (topologicalSort (sortDeps contours t)).flatten

/-- sortContours from path_tools.py: an empty input is returned unchanged;
otherwise the contours are reordered by the topologically sorted indices.
The Python assert comparing the index count with the contour count is
modelled by returning none when it fails. -/
def sortContours {K : Type} [LinearOrderedField K] (contours : List (Contour K))
    (t : Affine K) : Option (List (Contour K)) :=
  if contours.isEmpty then some contours
  else
    let sortedIndices := sortContoursIndices contours t
    if sortedIndices.length = contours.length then
      some (sortedIndices.map (fun i => contours.getD i ⟨[], false⟩))
    else none

/-- Dependency relation of an association list: i depends on j. -/
def depRel (data : List (ℕ × List ℕ)) (i j : ℕ) : Prop :=
  ∃ p ∈ data, p.1 = i ∧ j ∈ p.2

/-- Acyclicity of a dependency map: no index transitively depends on itself. -/
def AcyclicDeps (data : List (ℕ × List ℕ)) : Prop :=
  ∀ i, ¬ Relation.TransGen (depRel data) i i

/-- Invariants of the dependency data processed by topoLoop: keys are
distinct, every dependency is itself a key, and there is no cycle. -/
def GoodDeps (data : List (ℕ × List ℕ)) : Prop :=
  (data.map Prod.fst).Nodup ∧
  (∀ p ∈ data, ∀ j ∈ p.2, j ∈ data.map Prod.fst) ∧
  AcyclicDeps data

/-- Index j is placed before index i somewhere in the list L. -/
def Before (j i : ℕ) (L : List ℕ) : Prop :=
  ∃ l1 l2, L = l1 ++ l2 ∧ j ∈ l1 ∧ i ∈ l2

/-- Concrete unit square with x from 0 to 1, four line segments, closed. -/
def sqA : Contour ℚ :=
  ⟨[⟨[(0, 0), (1, 0)]⟩, ⟨[(1, 0), (1, 1)]⟩, ⟨[(1, 1), (0, 1)]⟩, ⟨[(0, 1), (0, 0)]⟩], true⟩

/-- Concrete unit square with x from 4 to 5, four line segments, closed. -/
def sqB : Contour ℚ :=
  ⟨[⟨[(4, 0), (5, 0)]⟩, ⟨[(5, 0), (5, 1)]⟩, ⟨[(5, 1), (4, 1)]⟩, ⟨[(4, 1), (4, 0)]⟩], true⟩

/-- Identity affine transform. -/
def idAffine : Affine ℚ := ⟨1, 0, 0, 1, 0, 0⟩

/-- Modelled from the spec: fontTools Transform().rotate(-angle) applied to a
point, rotation by minus the cutting angle. -/
noncomputable def rotPoint (angle : ℝ) (p : Point ℝ) : Point ℝ :=
  (Real.cos angle * p.1 + Real.sin angle * p.2,
   -(Real.sin angle) * p.1 + Real.cos angle * p.2)

/-- Modelled from the spec: fontTools calcCubicParameters, the polynomial
coefficients (a, b, c, d) with curve(t) equal to a t cubed plus b t squared
plus c t plus d, computed coordinatewise. -/
def calcCubicParameters {K : Type} [LinearOrderedField K] (pt1 pt2 pt3 pt4 : Point K) :
    Point K × Point K × Point K × Point K :=
  let d := pt1
  let c : Point K := ((pt2.1 - pt1.1) * 3, (pt2.2 - pt1.2) * 3)
  let b : Point K := ((pt3.1 - pt2.1) * 3 - c.1, (pt3.2 - pt2.2) * 3 - c.2)
  let a : Point K := (pt4.1 - d.1 - c.1 - b.1, pt4.2 - d.2 - c.2 - b.2)
  (a, b, c, d)

/-- Modelled from the spec: external fontTools solveQuadratic, idealised to
return the distinct real roots of a quadratic; a vanishing leading
coefficient falls back to the linear case, and the identically zero
equation yields no roots, as in fontTools. -/
noncomputable def solveQuadratic (a b c : ℝ) : List ℝ :=
  if a = 0 then
    if b = 0 then []
    else [-c / b]
  else
    let dd := b * b - 4 * a * c
    if 0 < dd then
      [(-b + Real.sqrt dd) / (2 * a), (-b - Real.sqrt dd) / (2 * a)]
    else if dd = 0 then [-b / (2 * a)]
    else []

/-- First-derivative coefficients of splitCurveAtAngle from path_tools.py:
the rotated curve's polynomial coefficients give the derivative
coefficients ((ax3, ay3), (bx2, by2), (cx, cy)). -/
noncomputable def scaCoeffs (p1 p2 p3 p4 : Point ℝ) (angle : ℝ) :
    (ℝ × ℝ) × (ℝ × ℝ) × (ℝ × ℝ) :=
  let q1 := rotPoint angle p1
  let q2 := rotPoint angle p2
  let q3 := rotPoint angle p3
  let q4 := rotPoint angle p4
  let co := calcCubicParameters q1 q2 q3 q4
  ((co.1.1 * 3, co.1.2 * 3), (co.2.1.1 * 2, co.2.1.2 * 2), co.2.2.1)

/-- splitCurveAtAngle from path_tools.py: solve the rotated-frame derivative
quadratic in y for roots in the half-open unit interval; no root returns the
curve with none, a single root splits the curve (always when bothDirections,
otherwise only when the rotated x derivative at the root is positive), and
two roots abort with the "curve too complex" assertion. -/
noncomputable def splitCurveAtAngle (p1 p2 p3 p4 : Point ℝ) (angle : ℝ)
    (bothDirections : Bool) :
    Except String (List (Point ℝ) × Option (List (Point ℝ))) :=
  let co := scaCoeffs p1 p2 p3 p4 angle
  let yRoots := (solveQuadratic co.1.2 co.2.1.2 co.2.2.2).filter
    (fun t => if 0 ≤ t ∧ t < 1 then true else false)
  match yRoots with
  | [] => .ok ([p1, p2, p3, p4], none)
  | [t] =>
      if bothDirections ∨ co.1.1 * t ^ 2 + co.2.1.1 * t + co.2.2.1 > 0 then
        .ok ((splitCubicAtT p1 p2 p3 p4 t).1, some (splitCubicAtT p1 p2 p3 p4 t).2)
      else .ok ([p1, p2, p3, p4], none)
  | _ => .error "curve too complex"

/-- Ribbon construction of extrudePath from path_tools.py for one pair of
original and offset contours: original segments, a connecting segment, the
reversed offset segments, and a connecting segment back; none models the
IndexError on an empty contour or an empty point list. -/
def extrudeContour {K : Type} [LinearOrderedField K] (cont1 cont2 : Contour K)
    (reverse : Bool) : Option (Contour K) := do
  let segments1 := cont1.segments
  let segments2 := (cont2.reverse).segments
  let l1 ← segments1.getLast?
  let lp1 ← l1.points.getLast?
  let f2 ← segments2.head?
  let fp2 ← f2.points.head?
  let l2 ← segments2.getLast?
  let lp2 ← l2.points.getLast?
  let f1 ← segments1.head?
  let fp1 ← f1.points.head?
  let seg12 : Segment K := ⟨[lp1, fp2]⟩
  let seg21 : Segment K := ⟨[lp2, fp1]⟩
  let contour : Contour K := ⟨segments1 ++ [seg12] ++ segments2 ++ [seg21], true⟩
  some (if reverse then contour.reverse else contour)

/-- extrudePath from path_tools.py: translate the path along the angle by
depth, build one ribbon contour per original and offset contour pair, and
reverse each ribbon when requested. -/
noncomputable def extrudePath (path : Path ℝ) (angle depth : ℝ) (reverse : Bool) :
    Option (Path ℝ) := do
  let dx := depth * Real.cos angle
  let dy := depth * Real.sin angle
  let pathOffset := path.translate dx dy
  let conts ← (path.contours.zip pathOffset.contours).mapM
    (fun pr => extrudeContour pr.1 pr.2 reverse)
  some ⟨conts⟩

/-- Appends a segment to the last group of a group list, modelling the
Python sides[side][-1].append(segment); the empty group list is unreachable
in the Python (IndexError) and yields a fresh group. -/
def appendLast {K : Type} (groups : List (List (Segment K))) (s : Segment K) :
    List (List (Segment K)) :=
  match groups.getLast? with
  | none => [[s]]
  | some g => groups.dropLast ++ [g ++ [s]]

/-- Loop state of Contour.splitAtAngle from path_tools.py: the group lists of
the two sides and the side of the previously processed piece. -/
structure SplitState (K : Type) where
  side0 : List (List (Segment K))
  side1 : List (List (Segment K))
  previousSide : Option Bool

/-- Group list of one side. -/
def SplitState.get {K : Type} (st : SplitState K) (b : Bool) : List (List (Segment K)) :=
  if b then st.side1 else st.side0

/-- Replaces the group list of one side. -/
def SplitState.set {K : Type} (st : SplitState K) (b : Bool)
    (groups : List (List (Segment K))) : SplitState K :=
  if b then ⟨st.side0, groups, st.previousSide⟩ else ⟨groups, st.side1, st.previousSide⟩

/-- The push of Contour.splitAtAngle from path_tools.py: start a new group
when the previous side differs, then append the segment to the last group
of the chosen side. -/
def SplitState.pushSeg {K : Type} (st : SplitState K) (b : Bool) (s : Segment K) :
    SplitState K :=
  let groups := st.get b
  let groups := if st.previousSide ≠ some b then groups ++ [[]] else groups
  st.set b (appendLast groups s)

/-- The unconditional new-group push used for the second half of a split
cubic in Contour.splitAtAngle from path_tools.py. -/
def SplitState.pushNew {K : Type} (st : SplitState K) (b : Bool) (s : Segment K) :
    SplitState K :=
  st.set b (st.get b ++ [[s]])

/-- One loop iteration of Contour.splitAtAngle from path_tools.py.  The side
of a segment is the sign of the cross product of the angle direction with
the chord from points 0 to 1; a 4-point cubic also uses the chord from
points 2 to 3, and when the two sides disagree the cubic is split at the
angle, the first piece joining side1 and the second piece opening a new
group on side2.  A segment with fewer than two points is unreachable in the
Python (IndexError) and is skipped. -/
noncomputable def splitStep (angleX angleY angle : ℝ) (st : SplitState ℝ)
    (seg : Segment ℝ) : Except String (SplitState ℝ) :=
  match seg.points with
  | [p1, p2, p3, p4] =>
      let d1 := (p2.1 - p1.1, p2.2 - p1.2)
      let side1 : Bool := if 0 ≤ whichSide (angleX, angleY) d1 then true else false
      let d2 := (p4.1 - p3.1, p4.2 - p3.2)
      let side2 : Bool := if 0 ≤ whichSide (angleX, angleY) d2 then true else false
      if side1 = side2 then
        .ok { st.pushSeg side1 seg with previousSide := some side1 }
      else
        match splitCurveAtAngle p1 p2 p3 p4 angle true with
        | .error e => .error e
        | .ok (curve1, some curve2) =>
            .ok { (st.pushSeg side1 ⟨curve1⟩).pushNew side2 ⟨curve2⟩ with
              previousSide := some side2 }
        | .ok (curve1, none) =>
            .ok { st.pushSeg side1 ⟨curve1⟩ with previousSide := some side1 }
  | p1 :: p2 :: _ =>
      let d1 := (p2.1 - p1.1, p2.2 - p1.2)
      let side1 : Bool := if 0 ≤ whichSide (angleX, angleY) d1 then true else false
      .ok { st.pushSeg side1 seg with previousSide := some side1 }
  | _ => .ok st

/-- The segment loop of Contour.splitAtAngle from path_tools.py. -/
noncomputable def splitLoop (angleX angleY angle : ℝ) :
    SplitState ℝ → List (Segment ℝ) → Except String (SplitState ℝ)
  | st, [] => .ok st
  | st, seg :: rest =>
      match splitStep angleX angleY angle st seg with
      | .error e => .error e
      | .ok st' => splitLoop angleX angleY angle st' rest

/-- Wraparound merge of Contour.splitAtAngle from path_tools.py: when a side
has more than one group and the last group ends approximately where the
first group starts, the last group is prepended to the first.  The defaults
supplied to the partial lookups are unreachable for the nonempty groups the
loop produces. -/
def wrapMerge {K : Type} [LinearOrderedField K] (groups : List (List (Segment K))) :
    List (List (Segment K)) :=
  if 1 < groups.length ∧ pointsEqual
      (((groups.getLastD []).getLastD ⟨[]⟩).points.getLastD (0, 0))
      (((groups.headD []).headD ⟨[]⟩).points.headD (0, 0)) = true then
    ((groups.getLastD []) ++ (groups.headD [])) :: (groups.drop 1).dropLast
  else groups

/-- Contour.splitAtAngle from path_tools.py: requires a closed contour whose
first point coincides with its last point, classifies segments by the side
of the cutting direction, merges the wraparound seam, and returns the two
side Paths of open contours.  The asserts of the Python surface as distinct
errors, as does the IndexError on an empty contour. -/
noncomputable def Contour.splitAtAngle (c : Contour ℝ) (angle : ℝ) :
    Except String (Path ℝ × Path ℝ) :=
  if c.closed ≠ true then .error "assert self.closed"
  else
    match c.segments.head?.bind (fun s => s.points.head?),
        c.segments.getLast?.bind (fun s => s.points.getLast?) with
    | some fp, some lp =>
        if fp ≠ lp then .error "assert first point equals last point"
        else
          match splitLoop (Real.cos angle) (Real.sin angle) angle ⟨[], [], none⟩
              c.segments with
          | .error e => .error e
          | .ok st =>
              .ok (⟨(wrapMerge st.side0).map (fun g => ⟨g, false⟩)⟩,
                   ⟨(wrapMerge st.side1).map (fun g => ⟨g, false⟩)⟩)
    | _, _ => .error "empty contour"

/-- Python math.hypot. -/
noncomputable def hypot (x y : ℝ) : ℝ := Real.sqrt (x * x + y * y)

/-- normalize from path_tools.py: the unit vector, or (0, 0) for a vector
whose length is at most the 1e-11 guard. -/
noncomputable def normalize (x y : ℝ) : ℝ × ℝ :=
  let d := hypot x y
  if |d| > 1 / 100000000000 then (x / d, y / d) else (0, 0)

/-- Entry chord of a segment, points 0 to 1; a segment with fewer than two
points is unreachable in the Python (IndexError). -/
def entryDelta {K : Type} [LinearOrderedField K] (s : Segment K) : K × K :=
  match s.points with
  | p1 :: p2 :: _ => (p2.1 - p1.1, p2.2 - p1.2)
  | _ => (0, 0)

/-- Exit tangent of a segment as tracked by splitAtSharpCorners from
path_tools.py: the chord from points 2 to 3 for a 4-point cubic, otherwise
the entry chord d. -/
def exitDelta {K : Type} [LinearOrderedField K] (s : Segment K) (d : K × K) : K × K :=
  match s.points with
  | [_, _, p3, p4] => (p4.1 - p3.1, p4.2 - p3.2)
  | _ => d

/-- Cross product of the cutting direction with the entry chord of a
segment, the quantity whichSide is applied to in Contour.splitAtAngle. -/
noncomputable def entryCross (angle : ℝ) (s : Segment ℝ) : ℝ :=
  whichSide (Real.cos angle, Real.sin angle) (entryDelta s)

/-- Cross product of the cutting direction with the exit chord of a
segment: the chord from points 2 to 3 for a 4-point cubic, the entry chord
otherwise, matching the second whichSide test of Contour.splitAtAngle. -/
noncomputable def exitCross (angle : ℝ) (s : Segment ℝ) : ℝ :=
  whichSide (Real.cos angle, Real.sin angle) (exitDelta s (entryDelta s))

/-- Loop of Contour.splitAtSharpCorners from path_tools.py: a new group
starts wherever the cross product of the previous normalized exit tangent
with the next normalized entry chord exceeds 0.1 in magnitude. -/
noncomputable def sharpLoop :
    List (List (Segment ℝ)) → Option (ℝ × ℝ) → List (Segment ℝ) →
      List (List (Segment ℝ))
  | contours, _, [] => contours
  | contours, lastDelta, seg :: rest =>
      let d := entryDelta seg
      let contours :=
        match lastDelta with
        | some ld =>
            if |whichSide (normalize ld.1 ld.2) (normalize d.1 d.2)| > 1 / 10 then
              contours ++ [[]]
            else contours
        | none => contours
      sharpLoop (appendLast contours seg) (some (exitDelta seg d)) rest

/-- Contour.splitAtSharpCorners from path_tools.py: requires an open
contour; walks the segments and breaks at sharp corners, returning a Path
of open sub-contours. -/
noncomputable def Contour.splitAtSharpCorners (c : Contour ℝ) :
    Except String (Path ℝ) :=
  if c.closed = true then .error "assert not self.closed"
  else .ok ⟨(sharpLoop [[]] none c.segments).map (fun g => ⟨g, false⟩)⟩

/-- All segments collected in a group list. -/
def flatSegs {K : Type} (groups : List (List (Segment K))) : List (Segment K) :=
  groups.flatMap id

/-- Concrete ten-unit square over the reals, counter-clockwise from the
origin, four line segments, closed. -/
def sqR : Contour ℝ :=
  ⟨[⟨[(0, 0), (0, 10)]⟩, ⟨[(0, 10), (10, 10)]⟩, ⟨[(10, 10), (10, 0)]⟩,
    ⟨[(10, 0), (0, 0)]⟩], true⟩

/-- The lastDelta value sharpLoop records for a segment: the exit chord for
a 4-point cubic, otherwise the entry chord. -/
noncomputable def exitTangent (s : Segment ℝ) : ℝ × ℝ := exitDelta s (entryDelta s)

/-- The sharp-corner test between two consecutive segments: the cross
product of the normalized exit tangent of the first with the normalized
entry chord of the second exceeds 0.1 in magnitude. -/
def SharpCorner (a b : Segment ℝ) : Prop :=
  |whichSide (normalize (exitTangent a).1 (exitTangent a).2)
    (normalize (entryDelta b).1 (entryDelta b).2)| > 1 / 10

/-- A junction between consecutive groups: the last segment of the first
group and the first segment of the second form a sharp corner. -/
def SharpJunction (g1 g2 : List (Segment ℝ)) : Prop :=
  ∃ a b, g1.getLast? = some a ∧ g2.head? = some b ∧ SharpCorner a b

/-- Structural recursion computing the groups of splitAtSharpCorners: a new
group starts exactly at the sharp corners. -/
noncomputable def sharpChunks : Segment ℝ → List (Segment ℝ) → List (List (Segment ℝ))
  | s, [] => [[s]]
  | s, u :: rest =>
      match sharpChunks u rest with
      | g :: gs =>
          if |whichSide (normalize (exitTangent s).1 (exitTangent s).2)
              (normalize (entryDelta u).1 (entryDelta u).2)| > 1 / 10 then
            [s] :: g :: gs
          else (s :: g) :: gs
      | [] => [[s]]

/-- C8: splitAtT on a 2-point line segment returns the two halves
[p1, m] and [m, p2] with m the linear interpolation of p1 and p2 at t,
and each half reparametrises the original line segment:
the first half traced over u covers original parameters t*u, the second
half covers t + (1-t)*u, so drawn consecutively they reproduce the
original line exactly. -/
theorem C8_splitAtT_line {K : Type} [LinearOrderedField K] (p1 p2 : Point K) (t : K)
    (h0 : 0 ≤ t) (h1 : t ≤ 1) :
    (Segment.mk [p1, p2]).splitAtT t =
      (⟨[p1, lerp p1 p2 t]⟩, ⟨[lerp p1 p2 t, p2]⟩) ∧
    (∀ u : K, lerp p1 (lerp p1 p2 t) u = lerp p1 p2 (t * u)) ∧
    (∀ u : K, lerp (lerp p1 p2 t) p2 u = lerp p1 p2 (t + (1 - t) * u)) := by
  refine ⟨rfl, ?_, ?_⟩ <;> intro u <;>
    simp only [lerp, Prod.mk.injEq] <;> constructor <;> ring

/-- Witness for C8 at a concrete segment and parameter. -/
theorem C8_splitAtT_line_witness :
    (Segment.mk [((0 : ℚ), 0), (4, 2)]).splitAtT (1 / 2) =
      (⟨[(0, 0), lerp (0, 0) (4, 2) (1 / 2)]⟩, ⟨[lerp (0, 0) (4, 2) (1 / 2), (4, 2)]⟩) :=
  (C8_splitAtT_line ((0 : ℚ), 0) (4, 2) (1 / 2) (by norm_num) (by norm_num)).1

/-- C10: translate, transform and reverse preserve the point count of a
segment, the segment count and closed flag of a contour, and the contour
count of a path (the code defines reverse on segments and contours only),
and splitAtT maps a 2-point segment to two 2-point segments and a 4-point
segment to two 4-point segments. -/
theorem C10_structure_preservation {K : Type} [LinearOrderedField K] :
    (∀ (s : Segment K) (dx dy : K), (s.translate dx dy).points.length = s.points.length) ∧
    (∀ (s : Segment K) (t : Affine K), (s.transform t).points.length = s.points.length) ∧
    (∀ s : Segment K, s.reverse.points.length = s.points.length) ∧
    (∀ (c : Contour K) (dx dy : K), (c.translate dx dy).segments.length = c.segments.length ∧
      (c.translate dx dy).closed = c.closed) ∧
    (∀ (c : Contour K) (t : Affine K), (c.transform t).segments.length = c.segments.length ∧
      (c.transform t).closed = c.closed) ∧
    (∀ c : Contour K, c.reverse.segments.length = c.segments.length ∧
      c.reverse.closed = c.closed) ∧
    (∀ (p : Path K) (dx dy : K), (p.translate dx dy).contours.length = p.contours.length) ∧
    (∀ (p : Path K) (t : Affine K), (p.transform t).contours.length = p.contours.length) ∧
    (∀ (s : Segment K) (t : K), s.points.length = 2 →
      ((s.splitAtT t).1.points.length = 2 ∧ (s.splitAtT t).2.points.length = 2)) ∧
    (∀ (s : Segment K) (t : K), s.points.length = 4 →
      ((s.splitAtT t).1.points.length = 4 ∧ (s.splitAtT t).2.points.length = 4)) := by
  refine ⟨?_, ?_, ?_, ?_, ?_, ?_, ?_, ?_, ?_, ?_⟩
  · intro s dx dy; simp [Segment.translate]
  · intro s t; simp [Segment.transform]
  · intro s; simp [Segment.reverse]
  · intro c dx dy; constructor <;> simp [Contour.translate]
  · intro c t; constructor <;> simp [Contour.transform]
  · intro c; constructor <;> simp [Contour.reverse]
  · intro p dx dy; simp [Path.translate]
  · intro p t; simp [Path.transform]
  · rintro ⟨ps⟩ t h
    match ps, h with
    | [p1, p2], _ => exact ⟨rfl, rfl⟩
  · rintro ⟨ps⟩ t h
    match ps, h with
    | [p1, p2, p3, p4], _ => exact ⟨rfl, rfl⟩

/-- Witness for C10 at concrete two and four point segments. -/
theorem C10_structure_preservation_witness :
    ((Segment.mk [((0 : ℚ), 0), (2, 2)]).splitAtT (1 / 2)).1.points.length = 2 ∧
    ((Segment.mk [((0 : ℚ), 0), (1, 1), (2, 1), (3, 0)]).splitAtT (1 / 2)).1.points.length = 4 :=
  ⟨((C10_structure_preservation (K := ℚ)).2.2.2.2.2.2.2.2.1
      ⟨[(0, 0), (2, 2)]⟩ (1 / 2) rfl).1,
   ((C10_structure_preservation (K := ℚ)).2.2.2.2.2.2.2.2.2
      ⟨[(0, 0), (1, 1), (2, 1), (3, 0)]⟩ (1 / 2) rfl).1⟩

theorem segmentsOf_ne_nil {K : Type} (cur : Point K) {ops : List (PenOp K)}
    (h : ops ≠ []) : segmentsOf cur ops ≠ [] := by
  cases ops with
  | nil => exact absurd rfl h
  | cons op rest => cases op <;> simp [segmentsOf]

theorem segmentsOf_head {K : Type} (cur : Point K) (ops : List (PenOp K)) (hne : ops ≠ []) :
    ((segmentsOf cur ops).head?.bind (fun s => s.points.head?)) = some cur := by
  cases ops with
  | nil => exact absurd rfl hne
  | cons op rest => cases op <;> simp [segmentsOf]

theorem getLast?_cons_ne {α : Type} (a : α) {l : List α} (h : l ≠ []) :
    (a :: l).getLast? = l.getLast? := by
  cases l with
  | nil => exact absurd rfl h
  | cons b l2 => simp [List.getLast?_cons_cons]

theorem segmentsOf_last {K : Type} (cur : Point K) (ops : List (PenOp K)) (hne : ops ≠ []) :
    ((segmentsOf cur ops).getLast?.bind (fun s => s.points.getLast?)) =
      some ((ops.map PenOp.endPoint).getLastD cur) := by
  induction ops generalizing cur with
  | nil => exact absurd rfl hne
  | cons op rest ih =>
      cases rest with
      | nil => cases op <;> simp [segmentsOf, PenOp.endPoint]
      | cons op2 rest2 =>
          have hne2 : (op2 :: rest2) ≠ ([] : List (PenOp K)) := by simp
          have hcons : ∀ q : Point K, segmentsOf q (op2 :: rest2) ≠ [] :=
            fun q => segmentsOf_ne_nil q hne2
          cases op with
          | line pt =>
              simp only [segmentsOf]
              rw [getLast?_cons_ne _ (hcons pt), List.map_cons, List.getLastD_cons]
              exact ih pt hne2
          | curve p2 p3 p4 =>
              simp only [segmentsOf]
              rw [getLast?_cons_ne _ (hcons p4), List.map_cons, List.getLastD_cons]
              exact ih p4 hne2

theorem step_lineTo {K : Type} [LinearOrderedField K] (pref : List (Contour K))
    (acc : List (Segment K)) (cur pt : Point K) :
    PathBuilderPen.step (⟨⟨pref ++ [⟨acc, false⟩]⟩, some cur⟩ : PathBuilderPen K)
        (Cmd.lineTo pt) =
      some ⟨⟨pref ++ [⟨acc ++ [⟨[cur, pt]⟩], false⟩]⟩, some pt⟩ := by
  simp [PathBuilderPen.step, Path.appendSegment, List.getLast?_concat, List.dropLast_concat]

theorem step_curveTo {K : Type} [LinearOrderedField K] (pref : List (Contour K))
    (acc : List (Segment K)) (cur p2 p3 p4 : Point K) :
    PathBuilderPen.step (⟨⟨pref ++ [⟨acc, false⟩]⟩, some cur⟩ : PathBuilderPen K)
        (Cmd.curveTo p2 p3 p4) =
      some ⟨⟨pref ++ [⟨acc ++ [⟨[cur, p2, p3, p4]⟩], false⟩]⟩, some p4⟩ := by
  simp [PathBuilderPen.step, Path.appendSegment, List.getLast?_concat, List.dropLast_concat]

theorem buildPath_ops_loop {K : Type} [LinearOrderedField K] (ops : List (PenOp K)) :
    ∀ (cur : Point K) (pref : List (Contour K)) (acc : List (Segment K)),
    List.foldlM PathBuilderPen.step
        (⟨⟨pref ++ [⟨acc, false⟩]⟩, some cur⟩ : PathBuilderPen K) (ops.map PenOp.cmd) =
      some ⟨⟨pref ++ [⟨acc ++ segmentsOf cur ops, false⟩]⟩,
        some ((ops.map PenOp.endPoint).getLastD cur)⟩ := by
  induction ops with
  | nil => intro cur pref acc; simp [segmentsOf]
  | cons op rest ih =>
      intro cur pref acc
      cases op with
      | line pt =>
          rw [List.map_cons, List.foldlM_cons, PenOp.cmd, step_lineTo]
          rw [Option.bind_eq_bind, Option.some_bind,
            ih pt pref (acc ++ [Segment.mk [cur, pt]])]
          rw [List.map_cons, List.getLastD_cons]
          simp only [segmentsOf, List.append_assoc, List.singleton_append, PenOp.endPoint]
      | curve p2 p3 p4 =>
          rw [List.map_cons, List.foldlM_cons, PenOp.cmd, step_curveTo]
          rw [Option.bind_eq_bind, Option.some_bind,
            ih p4 pref (acc ++ [Segment.mk [cur, p2, p3, p4]])]
          rw [List.map_cons, List.getLastD_cons]
          simp only [segmentsOf, List.append_assoc, List.singleton_append, PenOp.endPoint]

theorem buildPath_block {K : Type} [LinearOrderedField K] (d : ContourCmds K)
    (hwf : d.WellFormed) (pref : List (Contour K)) (cp0 : Option (Point K)) :
    List.foldlM PathBuilderPen.step (⟨⟨pref⟩, cp0⟩ : PathBuilderPen K) d.cmds =
      some ⟨⟨pref ++ [d.contour]⟩, some d.endPoint⟩ := by
  obtain ⟨hne, hclose⟩ := hwf
  rw [ContourCmds.cmds, List.foldlM_cons]
  have hmove : PathBuilderPen.step (⟨⟨pref⟩, cp0⟩ : PathBuilderPen K)
      (Cmd.moveTo d.start) = some ⟨⟨pref ++ [⟨[], false⟩]⟩, some d.start⟩ := rfl
  rw [hmove, Option.bind_eq_bind, Option.some_bind, List.foldlM_append,
    buildPath_ops_loop d.ops d.start pref []]
  rw [Option.bind_eq_bind, Option.some_bind, List.nil_append]
  have hend : ((d.ops.map PenOp.endPoint).getLastD d.start) = d.endPoint := rfl
  rw [hend]
  by_cases hcl : d.closed
  · rw [if_pos hcl]
    obtain ⟨s0, hs0, hp0⟩ := Option.bind_eq_some.mp (segmentsOf_head d.start d.ops hne)
    obtain ⟨sl, hsl, hpl⟩ := Option.bind_eq_some.mp (segmentsOf_last d.start d.ops hne)
    have hclosec : Contour.closePath (⟨segmentsOf d.start d.ops, false⟩ : Contour K) =
        some ⟨segmentsOf d.start d.ops, true⟩ := by
      have hx : ¬ (d.start ≠ (d.ops.map PenOp.endPoint).getLastD d.start) := by
        rw [hend, hclose hcl]; exact fun hne2 => hne2 rfl
      simp only [Contour.closePath, hs0, hsl, hp0, hpl, Option.bind_eq_bind,
        Option.some_bind, if_neg hx]
    have hclosep : Path.closePath (⟨pref ++ [⟨segmentsOf d.start d.ops, false⟩]⟩ : Path K) =
        some ⟨pref ++ [⟨segmentsOf d.start d.ops, true⟩]⟩ := by
      simp only [Path.closePath, List.getLast?_concat, hclosec, Option.bind_eq_bind,
        Option.some_bind, List.dropLast_concat]
    have hstep : PathBuilderPen.step
        (⟨⟨pref ++ [⟨segmentsOf d.start d.ops, false⟩]⟩, some d.endPoint⟩ : PathBuilderPen K)
        Cmd.closePath =
        some ⟨⟨pref ++ [⟨segmentsOf d.start d.ops, true⟩]⟩, some d.endPoint⟩ := by
      simp only [PathBuilderPen.step, hclosep, Option.bind_eq_bind, Option.some_bind]
    simp only [List.foldlM_cons, List.foldlM_nil, hstep, Option.bind_eq_bind,
      Option.some_bind, Option.pure_def]
    rw [ContourCmds.contour, hcl]
  · rw [if_neg hcl]
    have hstep : PathBuilderPen.step
        (⟨⟨pref ++ [⟨segmentsOf d.start d.ops, false⟩]⟩, some d.endPoint⟩ : PathBuilderPen K)
        Cmd.endPath = some ⟨⟨pref ++ [⟨segmentsOf d.start d.ops, false⟩]⟩, some d.endPoint⟩ :=
      rfl
    simp only [List.foldlM_cons, List.foldlM_nil, hstep, Option.bind_eq_bind,
      Option.some_bind, Option.pure_def]
    rw [ContourCmds.contour]
    have hcf : d.closed = false := Bool.eq_false_iff.mpr (fun hx => hcl (by simp [hx]))
    rw [hcf]

theorem buildPath_blocks {K : Type} [LinearOrderedField K] (ds : List (ContourCmds K))
    (h : ∀ d ∈ ds, d.WellFormed) :
    ∀ (pref : List (Contour K)) (cp0 : Option (Point K)), ∃ cp',
    List.foldlM PathBuilderPen.step (⟨⟨pref⟩, cp0⟩ : PathBuilderPen K)
        (ds.flatMap ContourCmds.cmds) =
      some ⟨⟨pref ++ ds.map ContourCmds.contour⟩, cp'⟩ := by
  induction ds with
  | nil => intro pref cp0; exact ⟨cp0, by simp⟩
  | cons d rest ih =>
      intro pref cp0
      have hd := h d (List.mem_cons_self d rest)
      have hrest : ∀ d2 ∈ rest, d2.WellFormed := fun d2 hm => h d2 (List.mem_cons_of_mem d hm)
      obtain ⟨cp', hcp'⟩ := ih hrest (pref ++ [d.contour]) (some d.endPoint)
      refine ⟨cp', ?_⟩
      rw [List.flatMap_cons, List.foldlM_append, buildPath_block d hd pref cp0]
      rw [Option.bind_eq_bind, Option.some_bind, hcp', List.map_cons]
      rw [List.append_assoc, List.singleton_append]

theorem mapM_drawCmd {K : Type} (cur : Point K) (ops : List (PenOp K)) :
    (segmentsOf cur ops).mapM Segment.drawCmd = some (ops.map PenOp.cmd) := by
  induction ops generalizing cur with
  | nil => rfl
  | cons op rest ih => cases op <;>
      simp only [segmentsOf, List.mapM_cons, Segment.drawCmd, ih, List.map_cons, PenOp.cmd,
        Option.bind_eq_bind, Option.some_bind, Option.pure_def]

theorem draw_contour {K : Type} (d : ContourCmds K) (hwf : d.WellFormed) :
    d.contour.draw = some d.cmds := by
  obtain ⟨hne, _⟩ := hwf
  obtain ⟨s0, hs0, hp0⟩ := Option.bind_eq_some.mp (segmentsOf_head d.start d.ops hne)
  rw [Contour.draw, ContourCmds.contour]
  rw [hs0]
  simp only [Option.bind_eq_bind, Option.some_bind, hp0, mapM_drawCmd]
  rw [ContourCmds.cmds]

theorem draw_blocks {K : Type} (ds : List (ContourCmds K))
    (h : ∀ d ∈ ds, d.WellFormed) :
    Path.draw (⟨ds.map ContourCmds.contour⟩ : Path K) = some (ds.flatMap ContourCmds.cmds) := by
  rw [Path.draw]
  have hmap : (ds.map ContourCmds.contour).mapM Contour.draw =
      some (ds.map ContourCmds.cmds) := by
    induction ds with
    | nil => rfl
    | cons d rest ih =>
        have hd := h d (List.mem_cons_self d rest)
        have hrest : ∀ d2 ∈ rest, d2.WellFormed :=
          fun d2 hm => h d2 (List.mem_cons_of_mem d hm)
        simp only [List.map_cons, List.mapM_cons, draw_contour d hd, ih hrest,
          Option.bind_eq_bind, Option.some_bind, Option.pure_def]
  rw [hmap]
  simp [List.flatMap_def]

/-- C5 counterexample: the command stream moveTo (0,0), lineTo (1,0),
closePath is a well-formed closed triangle-free contour, but replaying the
built path emits an extra lineTo back to the start (the closing line that
closePath synthesized), so the replayed command sequence is not the same
line/close structure as the input. -/
theorem C5_roundtrip_counterexample :
    buildPath [Cmd.moveTo ((0 : ℚ), 0), Cmd.lineTo (1, 0), Cmd.closePath] =
      some ⟨[⟨[⟨[(0, 0), (1, 0)]⟩, ⟨[(1, 0), (0, 0)]⟩], true⟩]⟩ ∧
    Path.draw (⟨[⟨[⟨[((0 : ℚ), 0), (1, 0)]⟩, ⟨[(1, 0), (0, 0)]⟩], true⟩]⟩ : Path ℚ) =
      some [Cmd.moveTo (0, 0), Cmd.lineTo (1, 0), Cmd.lineTo (0, 0), Cmd.closePath] ∧
    ([Cmd.moveTo ((0 : ℚ), 0), Cmd.lineTo (1, 0), Cmd.lineTo (0, 0), Cmd.closePath] ≠
      [Cmd.moveTo (0, 0), Cmd.lineTo (1, 0), Cmd.closePath]) := by
  refine ⟨by decide, by decide, by decide⟩

/-- C5 amended: feeding a stream of well-formed contour command blocks into
PathBuilderPen and replaying the built path through draw reproduces exactly
the same command sequence, provided every closed block explicitly returns to
its start point before closePath; otherwise the replay inserts the
synthesized closing line as an extra lineTo. -/
theorem C5_roundtrip_amended {K : Type} [LinearOrderedField K]
    (ds : List (ContourCmds K)) (h : ∀ d ∈ ds, d.WellFormed) :
    buildPath (ds.flatMap ContourCmds.cmds) = some (Path.mk (ds.map ContourCmds.contour)) ∧
    Path.draw (Path.mk (ds.map ContourCmds.contour)) =
      some (ds.flatMap ContourCmds.cmds) := by
  constructor
  · obtain ⟨cp', hcp'⟩ := buildPath_blocks ds h [] none
    rw [buildPath, PathBuilderPen.init]
    rw [hcp']
    simp [Option.map_some]
  · exact draw_blocks ds h

/-- Witness for C5 amended: a concrete closed square block and an open block
round-trip exactly. -/
theorem C5_roundtrip_amended_witness :
    buildPath (List.flatMap
        ([⟨((0 : ℚ), 0), [PenOp.line (1, 0), PenOp.line (1, 1), PenOp.line (0, 0)], true⟩,
          ⟨((5 : ℚ), 5), [PenOp.curve (6, 6) (7, 6) (8, 5)], false⟩] : List (ContourCmds ℚ))
        ContourCmds.cmds) =
      some (Path.mk (List.map ContourCmds.contour
        ([⟨((0 : ℚ), 0), [PenOp.line (1, 0), PenOp.line (1, 1), PenOp.line (0, 0)], true⟩,
          ⟨((5 : ℚ), 5), [PenOp.curve (6, 6) (7, 6) (8, 5)], false⟩] : List (ContourCmds ℚ)))) :=
  (C5_roundtrip_amended
    ([⟨((0 : ℚ), 0), [PenOp.line (1, 0), PenOp.line (1, 1), PenOp.line (0, 0)], true⟩,
      ⟨((5 : ℚ), 5), [PenOp.curve (6, 6) (7, 6) (8, 5)], false⟩] : List (ContourCmds ℚ))
    (by intro d hd; fin_cases hd <;> exact ⟨by decide, by decide⟩)).1

theorem insertSorted_perm (x : ℕ) (l : List ℕ) : (insertSorted x l).Perm (x :: l) := by
  induction l with
  | nil => exact List.Perm.refl _
  | cons y ys ih =>
      rw [insertSorted]
      by_cases h : x ≤ y
      · rw [if_pos h]
      · rw [if_neg h]
        exact (List.Perm.cons y ih).trans (List.Perm.swap x y ys)

theorem sortNats_perm (l : List ℕ) : (sortNats l).Perm l := by
  induction l with
  | nil => exact List.Perm.refl _
  | cons x xs ih =>
      rw [sortNats, List.foldr_cons]
      exact (insertSorted_perm x _).trans (List.Perm.cons x ih)

theorem length_filter_lt {α : Type} (p : α → Bool) (l : List α) (x : α)
    (hx : x ∈ l) (hpx : p x = false) : (l.filter p).length < l.length := by
  induction l with
  | nil => cases hx
  | cons a t ih =>
      rcases List.mem_cons.mp hx with h | h
      · subst h
        rw [List.filter_cons, hpx]
        simp only [Bool.false_eq_true, if_false, List.length_cons]
        exact Nat.lt_succ_of_le (List.length_filter_le p t)
      · rw [List.filter_cons]
        by_cases hpa : p a
        · simp only [hpa, if_true, List.length_cons]
          exact Nat.succ_lt_succ (ih h)
        · simp only [hpa, Bool.false_eq_true, if_false, List.length_cons]
          exact Nat.lt_succ_of_lt (ih h)

theorem entry_unique {data : List (ℕ × List ℕ)} (hnd : (data.map Prod.fst).Nodup)
    {p q : ℕ × List ℕ} (hp : p ∈ data) (hq : q ∈ data) (h : p.1 = q.1) : p = q := by
  induction data with
  | nil => cases hp
  | cons a t ih =>
      rw [List.map_cons, List.nodup_cons] at hnd
      rcases List.mem_cons.mp hp with hp1 | hp1 <;> rcases List.mem_cons.mp hq with hq1 | hq1
      · rw [hp1, hq1]
      · have hmem : q.1 ∈ List.map Prod.fst t := List.mem_map_of_mem Prod.fst hq1
        have ha : a.1 = q.1 := by rw [← hp1, h]
        exact absurd hmem (ha ▸ hnd.1)
      · have hmem : p.1 ∈ List.map Prod.fst t := List.mem_map_of_mem Prod.fst hp1
        have ha : a.1 = p.1 := by rw [← hq1, ← h]
        exact absurd hmem (ha ▸ hnd.1)
      · exact ih hnd.2 hp1 hq1

theorem headD_mem {α : Type} {l : List α} (hne : l ≠ []) (d : α) : l.headD d ∈ l := by
  cases l with
  | nil => exact absurd rfl hne
  | cons a t => simp [List.headD]

theorem exists_ready (data : List (ℕ × List ℕ)) (hgood : GoodDeps data)
    (hne : data ≠ []) : ∃ p ∈ data, p.2 = [] := by
  obtain ⟨hnd, hsub, hacyc⟩ := hgood
  by_contra hall
  push_neg at hall
  classical
  let keys := data.map Prod.fst
  let g : ℕ → ℕ := fun i =>
    match data.find? (fun p => decide (p.1 = i)) with
    | some p => p.2.headD i
    | none => i
  have hstep : ∀ i ∈ keys, depRel data i (g i) ∧ g i ∈ keys := by
    intro i hi
    obtain ⟨p, hpmem, hp1⟩ := List.mem_map.mp hi
    have hfind : (data.find? (fun p => decide (p.1 = i))).isSome :=
      List.find?_isSome.mpr ⟨p, hpmem, by simp [hp1]⟩
    obtain ⟨q, hq⟩ := Option.isSome_iff_exists.mp hfind
    have hqmem : q ∈ data := List.mem_of_find?_eq_some hq
    have hq1 : q.1 = i := by simpa using List.find?_some hq
    have hq2 : q.2 ≠ [] := hall q hqmem
    have hgi : g i = q.2.headD i := by
      show (match data.find? (fun p => decide (p.1 = i)) with
        | some p => p.2.headD i
        | none => i) = q.2.headD i
      rw [hq]
    have hmem2 : q.2.headD i ∈ q.2 := headD_mem hq2 i
    constructor
    · exact ⟨q, hqmem, hq1, by rw [hgi]; exact hmem2⟩
    · rw [hgi]; exact hsub q hqmem _ hmem2
  have hkeysne : keys ≠ [] := by
    intro hk
    exact hne (List.map_eq_nil_iff.mp hk)
  let i0 := keys.headD 0
  have hi0 : i0 ∈ keys := headD_mem hkeysne 0
  have hiter : ∀ n : ℕ, g^[n] i0 ∈ keys := by
    intro n
    induction n with
    | zero => exact hi0
    | succ m ihm =>
        rw [Function.iterate_succ_apply']
        exact (hstep _ ihm).2
  have hcard : keys.toFinset.card < (Finset.range (keys.toFinset.card + 1)).card := by
    rw [Finset.card_range]; exact Nat.lt_succ_self _
  obtain ⟨a, _, b, _, hab, heq⟩ :=
    Finset.exists_ne_map_eq_of_card_lt_of_maps_to hcard
      (fun n _ => List.mem_toFinset.mpr (hiter n))
  have hchain : ∀ (k : ℕ) (x : ℕ), x ∈ keys → k ≠ 0 →
      Relation.TransGen (depRel data) x (g^[k] x) := by
    intro k
    induction k with
    | zero => intro x _ hk; exact absurd rfl hk
    | succ m ihm =>
        intro x hx _
        cases Nat.eq_zero_or_pos m with
        | inl hm0 =>
            subst hm0
            rw [Function.iterate_one]
            exact Relation.TransGen.single (hstep x hx).1
        | inr hmpos =>
            have hxm : g^[m] x ∈ keys := by
              have : ∀ n : ℕ, g^[n] x ∈ keys := by
                intro n
                induction n with
                | zero => exact hx
                | succ r ihr => rw [Function.iterate_succ_apply']; exact (hstep _ ihr).2
              exact this m
            rw [Function.iterate_succ_apply']
            exact Relation.TransGen.tail (ihm x hx (Nat.pos_iff_ne_zero.mp hmpos))
              (hstep _ hxm).1
  rcases Nat.lt_or_ge a b with hlt | hge
  · have hx : g^[a] i0 ∈ keys := hiter a
    have : Relation.TransGen (depRel data) (g^[a] i0) (g^[b - a] (g^[a] i0)) :=
      hchain (b - a) _ hx (Nat.sub_ne_zero_of_lt hlt)
    rw [← Function.iterate_add_apply, Nat.sub_add_cancel (Nat.le_of_lt hlt)] at this
    rw [heq] at this
    exact hacyc _ this
  · have hlt2 : b < a := Nat.lt_of_le_of_ne hge (fun h => hab h.symm)
    have hx : g^[b] i0 ∈ keys := hiter b
    have : Relation.TransGen (depRel data) (g^[b] i0) (g^[a - b] (g^[b] i0)) :=
      hchain (a - b) _ hx (Nat.sub_ne_zero_of_lt hlt2)
    rw [← Function.iterate_add_apply, Nat.sub_add_cancel (Nat.le_of_lt hlt2)] at this
    rw [← heq] at this
    exact hacyc _ this

theorem map_fst_filter_key (data : List (ℕ × List ℕ)) (q : ℕ → Bool) :
    ((data.filter (fun p => q p.1)).map Prod.fst) = (data.map Prod.fst).filter q := by
  induction data with
  | nil => rfl
  | cons a t ih =>
      rw [List.filter_cons, List.map_cons, List.filter_cons]
      by_cases hqa : q a.1
      · rw [if_pos hqa, if_pos hqa, List.map_cons, ih]
      · rw [if_neg hqa, if_neg hqa, ih]

theorem mem_readySet {data : List (ℕ × List ℕ)} {x : ℕ} :
    x ∈ readySet data ↔ ∃ p ∈ data, p.2 = [] ∧ p.1 = x := by
  rw [readySet, (sortNats_perm _).mem_iff]
  constructor
  · intro h
    obtain ⟨p, hpf, hp1⟩ := List.mem_map.mp h
    exact ⟨p, List.mem_of_mem_filter hpf, by simpa using List.of_mem_filter hpf, hp1⟩
  · rintro ⟨p, hp, h2, h1⟩
    exact h1 ▸ List.mem_map_of_mem _ (List.mem_filter.mpr ⟨hp, by simp [h2]⟩)

theorem readySet_nodup {data : List (ℕ × List ℕ)}
    (hnd : (data.map Prod.fst).Nodup) : (readySet data).Nodup := by
  rw [readySet]
  exact ((sortNats_perm _).nodup_iff).mpr
    (((List.filter_sublist data).map Prod.fst).nodup hnd)

theorem readySet_subset {data : List (ℕ × List ℕ)} :
    ∀ x ∈ readySet data, x ∈ data.map Prod.fst := by
  intro x hx
  rw [readySet, (sortNats_perm _).mem_iff] at hx
  exact ((List.filter_sublist data).map Prod.fst).subset hx

theorem nextData_keys (data : List (ℕ × List ℕ)) :
    (nextData data).map Prod.fst =
      (data.map Prod.fst).filter (fun i => decide (i ∉ readySet data)) := by
  rw [nextData, List.map_map]
  have hcomp : (Prod.fst ∘ fun p : ℕ × List ℕ =>
      (p.1, p.2.filter (fun j => decide (j ∉ readySet data)))) = Prod.fst := rfl
  rw [hcomp]
  exact map_fst_filter_key data (fun i => decide (i ∉ readySet data))

theorem nextData_good {data : List (ℕ × List ℕ)} (hgood : GoodDeps data) :
    GoodDeps (nextData data) := by
  obtain ⟨hnd, hsub, hacyc⟩ := hgood
  refine ⟨?_, ?_, ?_⟩
  · rw [nextData_keys]; exact hnd.filter _
  · intro p' hp' j hj
    rw [nextData] at hp'
    obtain ⟨p, hpfil, hpe⟩ := List.mem_map.mp hp'
    have hpmem : p ∈ data := List.mem_of_mem_filter hpfil
    rw [← hpe] at hj
    have hj2 : j ∈ p.2 := List.mem_of_mem_filter hj
    have hjno : j ∉ readySet data := by simpa using List.of_mem_filter hj
    rw [nextData_keys]
    exact List.mem_filter.mpr ⟨hsub p hpmem j hj2, by simpa⟩
  · intro i hcyc
    have hmono : ∀ a b, depRel (nextData data) a b → depRel data a b := by
      rintro a b ⟨p', hp', hp1, hb⟩
      rw [nextData] at hp'
      obtain ⟨p, hpfil, hpe⟩ := List.mem_map.mp hp'
      refine ⟨p, List.mem_of_mem_filter hpfil, ?_, ?_⟩
      · rw [← hpe] at hp1; exact hp1
      · rw [← hpe] at hb; exact List.mem_of_mem_filter hb
    exact hacyc i (Relation.TransGen.mono hmono hcyc)

theorem nextData_len {data : List (ℕ × List ℕ)} (hgood : GoodDeps data)
    (hd : data ≠ []) : (nextData data).length < data.length := by
  obtain ⟨p0, hp0mem, hp0nil⟩ := exists_ready data hgood hd
  have hp0in : p0.1 ∈ readySet data := mem_readySet.mpr ⟨p0, hp0mem, hp0nil, rfl⟩
  rw [nextData, List.length_map]
  exact length_filter_lt _ data p0 hp0mem (by simp [hp0in])

theorem readySet_not_isEmpty {data : List (ℕ × List ℕ)} (hgood : GoodDeps data)
    (hd : data ≠ []) : ¬ ((readySet data).isEmpty = true) := by
  obtain ⟨p0, hp0mem, hp0nil⟩ := exists_ready data hgood hd
  have hp0in : p0.1 ∈ readySet data := mem_readySet.mpr ⟨p0, hp0mem, hp0nil, rfl⟩
  rw [List.isEmpty_iff]
  intro h0
  rw [h0] at hp0in
  cases hp0in

theorem topoLoop_total : ∀ (fuel : ℕ) (data : List (ℕ × List ℕ)),
    GoodDeps data → data.length + 1 ≤ fuel →
    ((topoLoop fuel data).flatten).Perm (data.map Prod.fst) := by
  intro fuel
  induction fuel with
  | zero => intro data _ hf; exact absurd hf (Nat.not_succ_le_zero _)
  | succ fuel ih =>
      intro data hgood hf
      by_cases hd : data = []
      · subst hd
        simp [topoLoop, readySet, sortNats]
      · simp only [topoLoop]
        rw [if_neg (readySet_not_isEmpty hgood hd), List.flatten_cons]
        have hlen : (nextData data).length + 1 ≤ fuel := by
          have := nextData_len hgood hd
          omega
        have ihh := ih (nextData data) (nextData_good hgood) hlen
        refine (List.Perm.append_left (readySet data) ihh).trans ?_
        rw [nextData_keys]
        obtain ⟨hnd, hsub, hacyc⟩ := hgood
        have hperm1 : (List.filter (fun i => decide (i ∈ readySet data))
            (data.map Prod.fst)).Perm (readySet data) := by
          apply (List.perm_ext_iff_of_nodup (hnd.filter _) (readySet_nodup hnd)).mpr
          intro x
          simp only [List.mem_filter, decide_eq_true_eq]
          exact ⟨fun hx => hx.2, fun hx => ⟨readySet_subset x hx, hx⟩⟩
        have hfix : (data.map Prod.fst).filter (fun i => decide (i ∉ readySet data)) =
            (data.map Prod.fst).filter (fun i => ! (decide (i ∈ readySet data))) := by
          apply List.filter_congr
          intro x _
          simp [decide_not]
        rw [hfix]
        refine (List.Perm.append_right _ hperm1.symm).trans ?_
        exact List.filter_append_perm (fun i => decide (i ∈ readySet data))
          (data.map Prod.fst)

theorem topoLoop_respects : ∀ (fuel : ℕ) (data : List (ℕ × List ℕ)),
    GoodDeps data → data.length + 1 ≤ fuel →
    ∀ p ∈ data, ∀ j ∈ p.2, Before j p.1 ((topoLoop fuel data).flatten) := by
  intro fuel
  induction fuel with
  | zero => intro data _ hf; exact absurd hf (Nat.not_succ_le_zero _)
  | succ fuel ih =>
      intro data hgood hf p hp j hj
      by_cases hd : data = []
      · subst hd; cases hp
      · simp only [topoLoop]
        rw [if_neg (readySet_not_isEmpty hgood hd), List.flatten_cons]
        obtain ⟨hnd, hsub, hacyc⟩ := hgood
        have hpne : p.2 ≠ [] := by intro h0; rw [h0] at hj; cases hj
        have hino : p.1 ∉ readySet data := by
          intro hin
          obtain ⟨q, hqmem, hqnil, hq1⟩ := mem_readySet.mp hin
          have hpq : p = q := entry_unique hnd hp hqmem hq1.symm
          rw [hpq] at hpne
          exact hpne hqnil
        have hlen : (nextData data).length + 1 ≤ fuel := by
          have := nextData_len ⟨hnd, hsub, hacyc⟩ hd
          omega
        by_cases hjin : j ∈ readySet data
        · refine ⟨readySet data, (topoLoop fuel (nextData data)).flatten, rfl, hjin, ?_⟩
          have hperm := topoLoop_total fuel (nextData data)
            (nextData_good ⟨hnd, hsub, hacyc⟩) hlen
          rw [hperm.mem_iff, nextData_keys, List.mem_filter]
          exact ⟨List.mem_map_of_mem Prod.fst hp, by simpa⟩
        · have hp' : (p.1, p.2.filter (fun x => decide (x ∉ readySet data))) ∈
              nextData data := by
            rw [nextData]
            exact List.mem_map_of_mem _ (List.mem_filter.mpr ⟨hp, by simpa⟩)
          have hj' : j ∈ p.2.filter (fun x => decide (x ∉ readySet data)) :=
            List.mem_filter.mpr ⟨hj, by simpa⟩
          obtain ⟨l1, l2, hL, hjl1, hil2⟩ :=
            ih (nextData data) (nextData_good ⟨hnd, hsub, hacyc⟩) hlen _ hp' j hj'
          refine ⟨readySet data ++ l1, l2, ?_, ?_, hil2⟩
          · rw [List.append_assoc, hL]
          · exact List.mem_append.mpr (Or.inr hjl1)

theorem buildDeps_keys (n : ℕ) (cmp : List (ℕ × ℕ)) :
    (buildDeps n cmp).map Prod.fst = List.range n := by
  rw [buildDeps, List.map_map]
  have hcomp : (Prod.fst ∘ fun i : ℕ =>
      (i, (cmp.filter (fun p => decide (p.1 = i))).map Prod.snd)) = id := rfl
  rw [hcomp, List.map_id]

theorem mem_allPairs {n a b : ℕ} : (a, b) ∈ allPairs n ↔ a < b ∧ b < n := by
  rw [allPairs, List.mem_flatMap]
  constructor
  · rintro ⟨i, hi, hmem⟩
    obtain ⟨j, hj, hij⟩ := List.mem_filterMap.mp hmem
    by_cases hlt : i < j
    · rw [if_pos hlt] at hij
      injection hij with hij
      injection hij with h1 h2
      subst h1; subst h2
      exact ⟨hlt, List.mem_range.mp hj⟩
    · rw [if_neg hlt] at hij
      cases hij
  · rintro ⟨hab, hbn⟩
    refine ⟨a, List.mem_range.mpr (Nat.lt_trans hab hbn), ?_⟩
    exact List.mem_filterMap.mpr ⟨b, List.mem_range.mpr hbn, by rw [if_pos hab]⟩

theorem sortComparisons_mem {K : Type} [LinearOrderedField K]
    {contours : List (Contour K)} {t : Affine K} {c : ℕ × ℕ}
    (hc : c ∈ sortComparisons contours t) :
    c.1 < contours.length ∧ c.2 < contours.length := by
  rw [sortComparisons] at hc
  obtain ⟨q, hq, hqc⟩ := List.mem_filterMap.mp hc
  obtain ⟨p, hp, hpq⟩ := List.mem_map.mp hq
  have hpm : (p.1, p.2) ∈ allPairs contours.length := by
    rw [Prod.mk.eta]; exact hp
  obtain ⟨h12, h2n⟩ := mem_allPairs.mp hpm
  have h1n : p.1 < contours.length := Nat.lt_trans h12 h2n
  by_cases h0 : q.2.2 = 0
  · rw [if_pos h0] at hqc; cases hqc
  · rw [if_neg h0] at hqc
    by_cases hm1 : q.2.2 = -1
    · rw [if_pos hm1] at hqc
      injection hqc with hqc
      rw [← hqc, ← hpq]
      exact ⟨h1n, h2n⟩
    · rw [if_neg hm1] at hqc
      injection hqc with hqc
      rw [← hqc, ← hpq]
      exact ⟨h2n, h1n⟩

theorem sortDeps_good {K : Type} [LinearOrderedField K]
    (contours : List (Contour K)) (t : Affine K)
    (hacyc : AcyclicDeps (sortDeps contours t)) : GoodDeps (sortDeps contours t) := by
  refine ⟨?_, ?_, hacyc⟩
  · rw [sortDeps, buildDeps_keys]; exact List.nodup_range _
  · intro p hp j hj
    rw [sortDeps, buildDeps_keys]
    rw [sortDeps, buildDeps] at hp
    obtain ⟨i, hi, hie⟩ := List.mem_map.mp hp
    rw [← hie] at hj
    obtain ⟨cpr, hcf, hcs⟩ := List.mem_map.mp hj
    have hcm : cpr ∈ sortComparisons contours t := List.mem_of_mem_filter hcf
    rw [List.mem_range]
    rw [← hcs]
    exact (sortComparisons_mem hcm).2

theorem topoPrep_eq_self (data : List (ℕ × List ℕ))
    (hsub : ∀ p ∈ data, ∀ j ∈ p.2, j ∈ data.map Prod.fst) : topoPrep data = data := by
  simp only [topoPrep]
  have hfil : ((data.flatMap Prod.snd).filter
      (fun j => decide (j ∉ data.map Prod.fst))) = [] := by
    rw [List.filter_eq_nil_iff]
    intro j hjf
    obtain ⟨p, hp, hjp⟩ := List.mem_flatMap.mp hjf
    simp [hsub p hp j hjp]
  rw [hfil, List.dedup_nil, List.map_nil, List.append_nil]

theorem getD_map_lt {α β : Type} (f : α → β) (l : List α) {i : ℕ} (h : i < l.length)
    (d : β) (d' : α) : (l.map f).getD i d = f (l.getD i d') := by
  rw [List.getD_eq_getElem?_getD, List.getD_eq_getElem?_getD, List.getElem?_map]
  rw [List.getElem?_eq_getElem h]
  rfl

theorem calcBounds_le {K : Type} [LinearOrderedField K] (ps : List (Point K))
    (hne : ps ≠ []) :
    (calcBounds ps).xMin ≤ (calcBounds ps).xMax ∧
    (calcBounds ps).yMin ≤ (calcBounds ps).yMax := by
  cases ps with
  | nil => exact absurd rfl hne
  | cons p rest =>
      rw [calcBounds]
      have hgen : ∀ (l : List (Point K)) (bb : BoundingBox K),
          bb.xMin ≤ bb.xMax → bb.yMin ≤ bb.yMax →
          ((l.foldl (fun bb q => ⟨min bb.xMin q.1, min bb.yMin q.2,
              max bb.xMax q.1, max bb.yMax q.2⟩) bb).xMin ≤
            (l.foldl (fun bb q => ⟨min bb.xMin q.1, min bb.yMin q.2,
              max bb.xMax q.1, max bb.yMax q.2⟩) bb).xMax ∧
           (l.foldl (fun bb q => ⟨min bb.xMin q.1, min bb.yMin q.2,
              max bb.xMax q.1, max bb.yMax q.2⟩) bb).yMin ≤
            (l.foldl (fun bb q => ⟨min bb.xMin q.1, min bb.yMin q.2,
              max bb.xMax q.1, max bb.yMax q.2⟩) bb).yMax) := by
        intro l
        induction l with
        | nil => intro bb h1 h2; exact ⟨h1, h2⟩
        | cons q qs ih =>
            intro bb h1 h2
            rw [List.foldl_cons]
            exact ih _
              (le_trans (le_trans (min_le_left _ _) h1) (le_max_left _ _))
              (le_trans (le_trans (min_le_left _ _) h2) (le_max_left _ _))
      exact hgen rest ⟨p.1, p.2, p.1, p.2⟩ (le_refl _) (le_refl _)

theorem controlBounds_le {K : Type} [LinearOrderedField K] (c : Contour K)
    {b : BoundingBox K} (h : c.controlBounds = some b) :
    b.xMin ≤ b.xMax ∧ b.yMin ≤ b.yMax := by
  rw [Contour.controlBounds] at h
  cases hps : c.segments.flatMap Segment.points with
  | nil => rw [hps] at h; cases h
  | cons p rest =>
      rw [hps] at h
      injection h with h
      rw [← h]
      exact calcBounds_le _ (by simp)

theorem rectsOverlapVertically_symm {K : Type} [LinearOrderedField K]
    (r1 r2 : BoundingBox K) :
    rectsOverlapVertically r1 r2 = rectsOverlapVertically r2 r1 := by
  rw [rectsOverlapVertically, rectsOverlapVertically, max_comm, min_comm]

theorem horizontalOrderContour_left {K : Type} [LinearOrderedField K]
    (c1 c2 : Contour K) {b1 b2 : BoundingBox K}
    (h1 : c1.controlBounds = some b1) (h2 : c2.controlBounds = some b2)
    (hv : rectsOverlapVertically b1 b2 = true) (hx : b1.xMax ≤ b2.xMin) :
    horizontalOrderContour c1 c2 = -1 := by
  have hrect : horizontalOrderRect b1 b2 = -1 := by
    rw [horizontalOrderRect, if_pos hv, if_pos hx]
  simp only [horizontalOrderContour, h1, h2, hrect]
  rw [if_pos (by decide : (-1 : Int) ≠ 0)]

theorem horizontalOrderContour_right {K : Type} [LinearOrderedField K]
    (c1 c2 : Contour K) {b1 b2 : BoundingBox K}
    (h1 : c1.controlBounds = some b1) (h2 : c2.controlBounds = some b2)
    (hv : rectsOverlapVertically b1 b2 = true) (hx : b2.xMax < b1.xMin) :
    horizontalOrderContour c1 c2 = 1 := by
  have hb1 := controlBounds_le c1 h1
  have hb2 := controlBounds_le c2 h2
  have hfirst : ¬ (b1.xMax ≤ b2.xMin) := by
    intro hle
    exact absurd (lt_of_le_of_lt (le_trans hb1.1 (le_trans hle hb2.1)) hx) (lt_irrefl _)
  have hsecond : b1.xMin ≥ b2.xMax := le_of_lt hx
  have hrect : horizontalOrderRect b1 b2 = 1 := by
    rw [horizontalOrderRect, if_pos hv, if_neg hfirst, if_pos hsecond]
  simp only [horizontalOrderContour, h1, h2, hrect]
  rw [if_pos (by decide : (1 : Int) ≠ 0)]

theorem sortContoursIndices_eq_loop {K : Type} [LinearOrderedField K]
    (contours : List (Contour K)) (t : Affine K)
    (hgood : GoodDeps (sortDeps contours t)) :
    sortContoursIndices contours t =
      (topoLoop ((sortDeps contours t).length + 1) (sortDeps contours t)).flatten := by
  rw [sortContoursIndices]
  simp only [topologicalSort]
  rw [topoPrep_eq_self _ hgood.2.1]

/-- C1 (amended): for a list of contours whose pairwise horizontal-order
verdicts induce no dependency cycle, sortContours succeeds and its index
order is a permutation of all indices, each appearing exactly once; and for
every pair of contours whose transformed bounding boxes overlap vertically
and are horizontally disjoint, the contour whose box lies entirely at
GREATER x is placed first (the smaller-x contour comes later). -/
theorem C1_sortContours_amended {K : Type} [LinearOrderedField K]
    (contours : List (Contour K)) (t : Affine K)
    (hacyc : AcyclicDeps (sortDeps contours t)) :
    (sortContoursIndices contours t).Perm (List.range contours.length) ∧
    sortContours contours t =
      some ((sortContoursIndices contours t).map
        (fun i => contours.getD i ⟨[], false⟩)) ∧
    (∀ i j : ℕ, i < contours.length → j < contours.length →
      ∀ bi bj : BoundingBox K,
      ((contours.getD i ⟨[], false⟩).transform t).controlBounds = some bi →
      ((contours.getD j ⟨[], false⟩).transform t).controlBounds = some bj →
      rectsOverlapVertically bi bj = true →
      bi.xMax < bj.xMin →
      Before j i (sortContoursIndices contours t)) := by
  have hgood : GoodDeps (sortDeps contours t) := sortDeps_good contours t hacyc
  have hkeys : (sortDeps contours t).map Prod.fst = List.range contours.length := by
    rw [sortDeps, buildDeps_keys]
  have hflat := sortContoursIndices_eq_loop contours t hgood
  have hperm : (sortContoursIndices contours t).Perm (List.range contours.length) := by
    rw [hflat, ← hkeys]
    exact topoLoop_total _ _ hgood (le_refl _)
  refine ⟨hperm, ?_, ?_⟩
  · rw [sortContours]
    by_cases hnil : contours.isEmpty = true
    · rw [if_pos hnil]
      have hc : contours = [] := List.isEmpty_iff.mp hnil
      subst hc
      have hidx : sortContoursIndices ([] : List (Contour K)) t = [] := by
        have := hperm.length_eq
        rw [List.length_range, List.length_nil] at this
        exact List.eq_nil_of_length_eq_zero this
      rw [hidx]
      rfl
    · rw [if_neg hnil]
      have hlen : (sortContoursIndices contours t).length = contours.length := by
        rw [hperm.length_eq, List.length_range]
      rw [if_pos hlen]
  · intro i j hi hj bi bj hbi hbj hv hx
    have hij : i ≠ j := by
      intro he
      subst he
      rw [hbi] at hbj
      injection hbj with hbj
      rw [hbj] at hx
      have := (controlBounds_le _ hbi).1
      rw [hbj] at this
      exact absurd (lt_of_le_of_lt this hx) (lt_irrefl _)
    have hcti : (contours.map (fun c => c.transform t)).getD i ⟨[], false⟩ =
        (contours.getD i ⟨[], false⟩).transform t :=
      getD_map_lt _ _ hi _ _
    have hctj : (contours.map (fun c => c.transform t)).getD j ⟨[], false⟩ =
        (contours.getD j ⟨[], false⟩).transform t :=
      getD_map_lt _ _ hj _ _
    have hedge : (i, j) ∈ sortComparisons contours t := by
      rw [sortComparisons]
      rcases Nat.lt_or_ge i j with hlt | hge
      · refine List.mem_filterMap.mpr ⟨(i, j,
          horizontalOrderContour
            ((contours.map (fun c => c.transform t)).getD i ⟨[], false⟩)
            ((contours.map (fun c => c.transform t)).getD j ⟨[], false⟩)), ?_, ?_⟩
        · exact List.mem_map_of_mem _ (mem_allPairs.mpr ⟨hlt, hj⟩)
        · have hval : horizontalOrderContour
              ((contours.map (fun c => c.transform t)).getD i ⟨[], false⟩)
              ((contours.map (fun c => c.transform t)).getD j ⟨[], false⟩) = -1 := by
            rw [hcti, hctj]
            exact horizontalOrderContour_left _ _ hbi hbj hv (le_of_lt hx)
          rw [hval]
          rw [if_neg (by decide : ¬ ((-1 : Int) = 0)), if_pos rfl]
      · have hlt : j < i := Nat.lt_of_le_of_ne hge (fun h => hij h.symm)
        refine List.mem_filterMap.mpr ⟨(j, i,
          horizontalOrderContour
            ((contours.map (fun c => c.transform t)).getD j ⟨[], false⟩)
            ((contours.map (fun c => c.transform t)).getD i ⟨[], false⟩)), ?_, ?_⟩
        · exact List.mem_map_of_mem _ (mem_allPairs.mpr ⟨hlt, hi⟩)
        · have hval : horizontalOrderContour
              ((contours.map (fun c => c.transform t)).getD j ⟨[], false⟩)
              ((contours.map (fun c => c.transform t)).getD i ⟨[], false⟩) = 1 := by
            rw [hcti, hctj]
            exact horizontalOrderContour_right _ _ hbj hbi
              (by rw [rectsOverlapVertically_symm]; exact hv) hx
          rw [hval]
          rw [if_neg (by decide : ¬ ((1 : Int) = 0)),
            if_neg (by decide : ¬ ((1 : Int) = -1))]
    have hentry : (i, ((sortComparisons contours t).filter
        (fun p => decide (p.1 = i))).map Prod.snd) ∈ sortDeps contours t := by
      rw [sortDeps, buildDeps]
      exact List.mem_map_of_mem _ (List.mem_range.mpr hi)
    have hjdep : j ∈ ((sortComparisons contours t).filter
        (fun p => decide (p.1 = i))).map Prod.snd := by
      refine List.mem_map.mpr ⟨(i, j), ?_, rfl⟩
      exact List.mem_filter.mpr ⟨hedge, by simp⟩
    rw [hflat]
    exact topoLoop_respects _ _ hgood (le_refl _) _ hentry j hjdep

theorem transform_id_sqA : sqA.transform idAffine = sqA := by
  simp only [sqA, idAffine, Contour.transform, Segment.transform, Affine.transformPoint,
    List.map_cons, List.map_nil]
  norm_num

theorem transform_id_sqB : sqB.transform idAffine = sqB := by
  simp only [sqB, idAffine, Contour.transform, Segment.transform, Affine.transformPoint,
    List.map_cons, List.map_nil]
  norm_num

theorem sortComparisons_squares : sortComparisons [sqA, sqB] idAffine = [(0, 1)] := by
  simp only [sortComparisons, List.map_cons, List.map_nil, transform_id_sqA,
    transform_id_sqB]
  decide

theorem sortDeps_squares : sortDeps [sqA, sqB] idAffine = [(0, [1]), (1, [])] := by
  rw [sortDeps, sortComparisons_squares]
  decide

theorem sortContoursIndices_squares : sortContoursIndices [sqA, sqB] idAffine = [1, 0] := by
  rw [sortContoursIndices, sortDeps_squares]
  decide

/-- C1 counterexample: two disjoint unit squares with vertically overlapping
bounding boxes, the first lying entirely at smaller x than the second, are
returned by sortContours with the GREATER-x square first, so the claim that
the smaller-x contour comes first fails on this input. -/
theorem C1_sortContours_counterexample :
    sortContours [sqA, sqB] idAffine = some [sqB, sqA] ∧
    (sqA.transform idAffine).controlBounds = some ⟨0, 0, 1, 1⟩ ∧
    (sqB.transform idAffine).controlBounds = some ⟨4, 0, 5, 1⟩ ∧
    rectsOverlapVertically (⟨0, 0, 1, 1⟩ : BoundingBox ℚ) ⟨4, 0, 5, 1⟩ = true ∧
    ((1 : ℚ) < 4) ∧
    ([sqB, sqA] ≠ [sqA, sqB]) := by
  refine ⟨?_, ?_, ?_, by decide, by norm_num, by decide⟩
  · simp only [sortContours, sortContoursIndices_squares]
    decide
  · rw [transform_id_sqA]; decide
  · rw [transform_id_sqB]; decide

/-- Witness for C1 amended at the two concrete squares: the index order is a
permutation of the range and sortContours succeeds with this order. -/
theorem C1_sortContours_amended_witness :
    (sortContoursIndices [sqA, sqB] idAffine).Perm (List.range 2) ∧
    sortContours [sqA, sqB] idAffine =
      some ((sortContoursIndices [sqA, sqB] idAffine).map
        (fun i => [sqA, sqB].getD i ⟨[], false⟩)) := by
  have hdep : ∀ a b, depRel (sortDeps [sqA, sqB] idAffine) a b → a = 0 ∧ b = 1 := by
    intro a b hab
    rw [sortDeps_squares] at hab
    obtain ⟨p, hp, h1, h2⟩ := hab
    rcases List.mem_cons.mp hp with h | h
    · subst h
      refine ⟨h1.symm, ?_⟩
      rcases List.mem_singleton.mp h2 with h2
      exact h2
    · rcases List.mem_singleton.mp h with h
      subst h
      cases h2
  have hacyc : AcyclicDeps (sortDeps [sqA, sqB] idAffine) := by
    intro i hcyc
    rcases Relation.TransGen.head'_iff.mp hcyc with ⟨c, h1, h2⟩
    obtain ⟨e1, ec⟩ := hdep i c h1
    rcases Relation.ReflTransGen.cases_head h2 with heq | ⟨d, h3, _⟩
    · rw [ec, e1] at heq
      cases heq
    · obtain ⟨e3, _⟩ := hdep c d h3
      rw [ec] at e3
      cases e3
  exact ⟨(C1_sortContours_amended [sqA, sqB] idAffine hacyc).1,
    (C1_sortContours_amended [sqA, sqB] idAffine hacyc).2.1⟩

theorem solveQuadratic_sound {a b c t : ℝ} (ht : t ∈ solveQuadratic a b c) :
    a * t ^ 2 + b * t + c = 0 := by
  simp only [solveQuadratic] at ht
  split_ifs at ht with ha hb hdd hdd0
  · cases ht
  · rw [List.mem_singleton] at ht
    subst ht
    rw [ha]
    field_simp
    ring
  · have hs : discrim a b c =
        Real.sqrt (b * b - 4 * a * c) * Real.sqrt (b * b - 4 * a * c) := by
      rw [Real.mul_self_sqrt (le_of_lt hdd), discrim]
      ring
    have hmem : t = (-b + Real.sqrt (b * b - 4 * a * c)) / (2 * a) ∨
        t = (-b - Real.sqrt (b * b - 4 * a * c)) / (2 * a) := by
      rcases List.mem_cons.mp ht with h | h
      · exact Or.inl h
      · exact Or.inr (List.mem_singleton.mp h)
    have h0 : a * (t * t) + b * t + c = 0 := (quadratic_eq_zero_iff ha hs t).mpr hmem
    calc a * t ^ 2 + b * t + c = a * (t * t) + b * t + c := by ring
    _ = 0 := h0
  · rw [List.mem_singleton] at ht
    subst ht
    have hs : discrim a b c = 0 * 0 := by
      rw [discrim]
      linear_combination hdd0
    have h0 : a * ((-b / (2 * a)) * (-b / (2 * a))) + b * (-b / (2 * a)) + c = 0 :=
      (quadratic_eq_zero_iff ha hs _).mpr (Or.inl (by ring))
    calc a * (-b / (2 * a)) ^ 2 + b * (-b / (2 * a)) + c
        = a * ((-b / (2 * a)) * (-b / (2 * a))) + b * (-b / (2 * a)) + c := by ring
    _ = 0 := h0
  · cases ht

theorem solveQuadratic_complete {a b c t : ℝ} (hnz : ¬ (a = 0 ∧ b = 0 ∧ c = 0))
    (ht : a * t ^ 2 + b * t + c = 0) : t ∈ solveQuadratic a b c := by
  have ht' : a * (t * t) + b * t + c = 0 := by linear_combination ht
  simp only [solveQuadratic]
  split_ifs with ha hb hdd hdd0
  · rw [ha, hb] at ht
    simp at ht
    exact absurd ⟨ha, hb, ht⟩ hnz
  · rw [List.mem_singleton]
    rw [ha] at ht
    have hbt : b * t + c = 0 := by linear_combination ht
    field_simp
    linear_combination hbt
  · have hs : discrim a b c =
        Real.sqrt (b * b - 4 * a * c) * Real.sqrt (b * b - 4 * a * c) := by
      rw [Real.mul_self_sqrt (le_of_lt hdd), discrim]
      ring
    rcases (quadratic_eq_zero_iff ha hs t).mp ht' with h | h
    · rw [h]; exact List.mem_cons_self _ _
    · exact List.mem_cons_of_mem _ (List.mem_singleton.mpr h)
  · have hd2 : discrim a b c = (2 * a * t + b) ^ 2 :=
      (quadratic_eq_zero_iff_discrim_eq_sq ha t).mp ht'
    have hsq : (2 * a * t + b) ^ 2 = 0 := by
      rw [← hd2, discrim]
      linear_combination hdd0
    have h0 : 2 * a * t + b = 0 := sq_eq_zero_iff.mp hsq
    rw [List.mem_singleton]
    have ha2 : (2 : ℝ) * a ≠ 0 := by
      intro h
      rcases mul_eq_zero.mp h with h | h
      · exact two_ne_zero h
      · exact ha h
    field_simp
    linear_combination h0
  · have hd2 : discrim a b c = (2 * a * t + b) ^ 2 :=
      (quadratic_eq_zero_iff_discrim_eq_sq ha t).mp ht'
    have hddlt : b * b - 4 * a * c < 0 := by
      rcases lt_trichotomy (b * b - 4 * a * c) 0 with h | h | h
      · exact h
      · exact absurd h hdd0
      · exact absurd h hdd
    have : discrim a b c < 0 := by
      rw [discrim]
      linarith
    exact absurd (hd2 ▸ this) (not_lt.mpr (sq_nonneg _))

theorem solveQuadratic_nodup (a b c : ℝ) : (solveQuadratic a b c).Nodup := by
  simp only [solveQuadratic]
  split_ifs with ha hb hdd hdd0
  · exact List.nodup_nil
  · exact List.nodup_singleton _
  · refine List.nodup_cons.mpr ⟨?_, List.nodup_singleton _⟩
    rw [List.mem_singleton]
    intro heq
    have ha2 : (2 : ℝ) * a ≠ 0 := by
      intro h
      rcases mul_eq_zero.mp h with h | h
      · exact two_ne_zero h
      · exact ha h
    rw [div_eq_div_iff ha2 ha2] at heq
    have hs0 : Real.sqrt (b * b - 4 * a * c) = 0 := by
      have := mul_right_cancel₀ ha2 heq
      linarith [this]
    have : b * b - 4 * a * c = 0 := by
      have h1 := Real.sq_sqrt (le_of_lt hdd)
      rw [hs0] at h1
      simpa using h1.symm
    linarith
  · exact List.nodup_singleton _
  · exact List.nodup_nil

theorem filter01_nil {a b c : ℝ}
    (h : ∀ t : ℝ, 0 ≤ t → t < 1 → a * t ^ 2 + b * t + c ≠ 0) :
    (solveQuadratic a b c).filter (fun t => if 0 ≤ t ∧ t < 1 then true else false) = [] := by
  rw [List.filter_eq_nil_iff]
  intro t htm
  by_cases hr : 0 ≤ t ∧ t < 1
  · exact (h t hr.1 hr.2 (solveQuadratic_sound htm)).elim
  · rw [if_neg hr]
    simp

theorem singleton_of_nodup_subset {α : Type} {l : List α} {x : α} (hnd : l.Nodup)
    (hsub : ∀ y ∈ l, y = x) (hx : x ∈ l) : l = [x] := by
  cases l with
  | nil => cases hx
  | cons a rest =>
      have ha : a = x := hsub a (List.mem_cons_self _ _)
      subst ha
      have hrest : rest = [] := by
        cases rest with
        | nil => rfl
        | cons b rest2 =>
            have hb : b = a := hsub b (by simp)
            rw [List.nodup_cons] at hnd
            have hmem : a ∈ b :: rest2 := by
              rw [hb]
              exact List.mem_cons_self _ _
            exact absurd hmem hnd.1
      subst hrest
      rfl

theorem filter01_singleton {a b c t0 : ℝ} (h0 : 0 ≤ t0) (h1 : t0 < 1)
    (hroot : a * t0 ^ 2 + b * t0 + c = 0)
    (huniq : ∀ t : ℝ, 0 ≤ t → t < 1 → a * t ^ 2 + b * t + c = 0 → t = t0) :
    (solveQuadratic a b c).filter (fun t => if 0 ≤ t ∧ t < 1 then true else false) =
      [t0] := by
  have hnz : ¬ (a = 0 ∧ b = 0 ∧ c = 0) := by
    rintro ⟨ha, hb, hc⟩
    have r0 : (0 : ℝ) = t0 := huniq 0 le_rfl one_pos (by rw [ha, hb, hc]; ring)
    have rh : (1 / 2 : ℝ) = t0 := huniq (1 / 2) (by norm_num) (by norm_num)
      (by rw [ha, hb, hc]; ring)
    rw [← r0] at rh
    norm_num at rh
  apply singleton_of_nodup_subset
  · exact (solveQuadratic_nodup a b c).filter _
  · intro y hy
    have hys := solveQuadratic_sound (List.mem_of_mem_filter hy)
    have hyr : 0 ≤ y ∧ y < 1 := by
      have hmem := List.of_mem_filter hy
      by_cases hr : 0 ≤ y ∧ y < 1
      · exact hr
      · rw [if_neg hr] at hmem
        cases hmem
    exact huniq y hyr.1 hyr.2 hys
  · exact List.mem_filter.mpr ⟨solveQuadratic_complete hnz hroot, by rw [if_pos ⟨h0, h1⟩]⟩

/-- C3: splitCurveAtAngle returns the original curve with none when the
rotated-frame derivative quadratic has no root t with 0 at most t below 1;
with exactly one such root it returns the two halves split there when
bothDirections is true, and when bothDirections is false it returns the two
halves exactly when the rotated-X derivative at the root is positive and
the original curve with none otherwise. -/
theorem C3_splitCurveAtAngle (p1 p2 p3 p4 : Point ℝ) (angle : ℝ)
    (ax3 ay3 bx2 by2 cx cy : ℝ)
    (hco : scaCoeffs p1 p2 p3 p4 angle = ((ax3, ay3), (bx2, by2), (cx, cy))) :
    ((∀ t : ℝ, 0 ≤ t → t < 1 → ay3 * t ^ 2 + by2 * t + cy ≠ 0) →
      ∀ bd : Bool,
        splitCurveAtAngle p1 p2 p3 p4 angle bd = .ok ([p1, p2, p3, p4], none)) ∧
    (∀ t0 : ℝ, 0 ≤ t0 → t0 < 1 → ay3 * t0 ^ 2 + by2 * t0 + cy = 0 →
      (∀ t : ℝ, 0 ≤ t → t < 1 → ay3 * t ^ 2 + by2 * t + cy = 0 → t = t0) →
      (splitCurveAtAngle p1 p2 p3 p4 angle true =
        .ok ((splitCubicAtT p1 p2 p3 p4 t0).1, some (splitCubicAtT p1 p2 p3 p4 t0).2)) ∧
      (ax3 * t0 ^ 2 + bx2 * t0 + cx > 0 →
        splitCurveAtAngle p1 p2 p3 p4 angle false =
          .ok ((splitCubicAtT p1 p2 p3 p4 t0).1, some (splitCubicAtT p1 p2 p3 p4 t0).2)) ∧
      (¬ (ax3 * t0 ^ 2 + bx2 * t0 + cx > 0) →
        splitCurveAtAngle p1 p2 p3 p4 angle false = .ok ([p1, p2, p3, p4], none))) := by
  constructor
  · intro h bd
    have hfil := filter01_nil h
    simp only [splitCurveAtAngle, hco, hfil]
  · intro t0 h0 h1 hroot huniq
    have hfil := filter01_singleton h0 h1 hroot huniq
    refine ⟨?_, ?_, ?_⟩
    · simp only [splitCurveAtAngle, hco, hfil]
      simp
    · intro hx
      simp only [splitCurveAtAngle, hco, hfil]
      simp [hx]
    · intro hnx
      simp only [splitCurveAtAngle, hco, hfil]
      simp [hnx]

/-- Witness for C3: a straight diagonal cubic at angle zero has no
derivative-quadratic roots and is returned unchanged. -/
theorem C3_splitCurveAtAngle_witness :
    splitCurveAtAngle ((0 : ℝ), 0) (1, 1) (2, 2) (3, 3) 0 true =
      .ok ([((0 : ℝ), 0), (1, 1), (2, 2), (3, 3)], none) := by
  have hco : scaCoeffs ((0 : ℝ), 0) (1, 1) (2, 2) (3, 3) 0 =
      ((0, 0), (0, 0), (3, 3)) := by
    simp only [scaCoeffs, rotPoint, calcCubicParameters, Real.cos_zero, Real.sin_zero]
    norm_num
  exact (C3_splitCurveAtAngle _ _ _ _ 0 0 0 0 0 3 3 hco).1
    (by intro t ht0 ht1; norm_num) true

theorem solveQuadratic_zero : solveQuadratic 0 0 0 = [] := by
  simp [solveQuadratic]

theorem sca_of_filter_nil {p1 p2 p3 p4 : Point ℝ} {angle : ℝ}
    {ax3 ay3 bx2 by2 cx cy : ℝ}
    (hco : scaCoeffs p1 p2 p3 p4 angle = ((ax3, ay3), (bx2, by2), (cx, cy))) (bd : Bool)
    (hF : (solveQuadratic ay3 by2 cy).filter
      (fun t => if 0 ≤ t ∧ t < 1 then true else false) = []) :
    splitCurveAtAngle p1 p2 p3 p4 angle bd = .ok ([p1, p2, p3, p4], none) := by
  simp only [splitCurveAtAngle, hco, hF]

theorem sca_of_filter_single {p1 p2 p3 p4 : Point ℝ} {angle : ℝ}
    {ax3 ay3 bx2 by2 cx cy t : ℝ}
    (hco : scaCoeffs p1 p2 p3 p4 angle = ((ax3, ay3), (bx2, by2), (cx, cy))) (bd : Bool)
    (hF : (solveQuadratic ay3 by2 cy).filter
      (fun t => if 0 ≤ t ∧ t < 1 then true else false) = [t]) :
    splitCurveAtAngle p1 p2 p3 p4 angle bd =
      (if bd = true ∨ ax3 * t ^ 2 + bx2 * t + cx > 0 then
        .ok ((splitCubicAtT p1 p2 p3 p4 t).1, some (splitCubicAtT p1 p2 p3 p4 t).2)
      else .ok ([p1, p2, p3, p4], none)) := by
  simp only [splitCurveAtAngle, hco, hF]

theorem sca_of_filter_cons2 {p1 p2 p3 p4 : Point ℝ} {angle : ℝ}
    {ax3 ay3 bx2 by2 cx cy x y : ℝ} {rest : List ℝ}
    (hco : scaCoeffs p1 p2 p3 p4 angle = ((ax3, ay3), (bx2, by2), (cx, cy))) (bd : Bool)
    (hF : (solveQuadratic ay3 by2 cy).filter
      (fun t => if 0 ≤ t ∧ t < 1 then true else false) = x :: y :: rest) :
    splitCurveAtAngle p1 p2 p3 p4 angle bd = .error "curve too complex" := by
  simp only [splitCurveAtAngle, hco, hF]

/-- C6 (amended): splitCurveAtAngle aborts with the "curve too complex"
error exactly when the derivative quadratic is not identically zero and has
two distinct roots t with 0 at most t below 1; any error is that error, and
when the condition fails the function returns normally.  The identically
zero derivative quadratic (every t a root) is reported as no roots by the
solver and the curve is returned unchanged. -/
theorem C6_splitCurveAtAngle_error (p1 p2 p3 p4 : Point ℝ) (angle : ℝ)
    (ax3 ay3 bx2 by2 cx cy : ℝ)
    (hco : scaCoeffs p1 p2 p3 p4 angle = ((ax3, ay3), (bx2, by2), (cx, cy))) (bd : Bool) :
    (splitCurveAtAngle p1 p2 p3 p4 angle bd = .error "curve too complex" ↔
      (¬ (ay3 = 0 ∧ by2 = 0 ∧ cy = 0) ∧
        ∃ t1 t2 : ℝ, t1 ≠ t2 ∧ 0 ≤ t1 ∧ t1 < 1 ∧ 0 ≤ t2 ∧ t2 < 1 ∧
          ay3 * t1 ^ 2 + by2 * t1 + cy = 0 ∧ ay3 * t2 ^ 2 + by2 * t2 + cy = 0)) ∧
    (∀ e : String, splitCurveAtAngle p1 p2 p3 p4 angle bd = .error e →
      e = "curve too complex") ∧
    (¬ (¬ (ay3 = 0 ∧ by2 = 0 ∧ cy = 0) ∧
        ∃ t1 t2 : ℝ, t1 ≠ t2 ∧ 0 ≤ t1 ∧ t1 < 1 ∧ 0 ≤ t2 ∧ t2 < 1 ∧
          ay3 * t1 ^ 2 + by2 * t1 + cy = 0 ∧ ay3 * t2 ^ 2 + by2 * t2 + cy = 0) →
      ∃ v, splitCurveAtAngle p1 p2 p3 p4 angle bd = .ok v) := by
  have herrchar : ∀ e : String, splitCurveAtAngle p1 p2 p3 p4 angle bd = .error e →
      e = "curve too complex" ∧ ∃ x y rest, (solveQuadratic ay3 by2 cy).filter
        (fun t => if 0 ≤ t ∧ t < 1 then true else false) = x :: y :: rest := by
    intro e herr
    cases hF : (solveQuadratic ay3 by2 cy).filter
        (fun t => if 0 ≤ t ∧ t < 1 then true else false) with
    | nil =>
        rw [sca_of_filter_nil hco bd hF] at herr
        cases herr
    | cons x tail =>
        cases tail with
        | nil =>
            rw [sca_of_filter_single hco bd hF] at herr
            by_cases hcond : bd = true ∨ ax3 * x ^ 2 + bx2 * x + cx > 0
            · rw [if_pos hcond] at herr; cases herr
            · rw [if_neg hcond] at herr; cases herr
        | cons y rest =>
            rw [sca_of_filter_cons2 hco bd hF] at herr
            injection herr with he
            exact ⟨he.symm, x, y, rest, rfl⟩
  have hiff : splitCurveAtAngle p1 p2 p3 p4 angle bd = .error "curve too complex" ↔
      (¬ (ay3 = 0 ∧ by2 = 0 ∧ cy = 0) ∧
        ∃ t1 t2 : ℝ, t1 ≠ t2 ∧ 0 ≤ t1 ∧ t1 < 1 ∧ 0 ≤ t2 ∧ t2 < 1 ∧
          ay3 * t1 ^ 2 + by2 * t1 + cy = 0 ∧ ay3 * t2 ^ 2 + by2 * t2 + cy = 0) := by
    constructor
    · intro herr
      obtain ⟨_, x, y, rest, hF⟩ := herrchar _ herr
      have hnd : ((solveQuadratic ay3 by2 cy).filter
          (fun t => if 0 ≤ t ∧ t < 1 then true else false)).Nodup :=
        (solveQuadratic_nodup _ _ _).filter _
      rw [hF, List.nodup_cons] at hnd
      have hxy : x ≠ y := fun he => hnd.1 (he ▸ List.mem_cons_self _ _)
      have hrange : ∀ z ∈ (solveQuadratic ay3 by2 cy).filter
          (fun t => if 0 ≤ t ∧ t < 1 then true else false),
          (0 ≤ z ∧ z < 1) ∧ ay3 * z ^ 2 + by2 * z + cy = 0 := by
        intro z hz
        refine ⟨?_, solveQuadratic_sound (List.mem_of_mem_filter hz)⟩
        have hmem := List.of_mem_filter hz
        by_cases hr : 0 ≤ z ∧ z < 1
        · exact hr
        · rw [if_neg hr] at hmem; cases hmem
      have hx := hrange x (by rw [hF]; exact List.mem_cons_self _ _)
      have hy := hrange y (by rw [hF]; exact List.mem_cons_of_mem _ (List.mem_cons_self _ _))
      refine ⟨?_, x, y, hxy, hx.1.1, hx.1.2, hy.1.1, hy.1.2, hx.2, hy.2⟩
      rintro ⟨ha, hb, hc⟩
      rw [ha, hb, hc, solveQuadratic_zero] at hF
      cases hF
    · rintro ⟨hnz, t1, t2, hne, h10, h11, h20, h21, hr1, hr2⟩
      have ht1 : t1 ∈ (solveQuadratic ay3 by2 cy).filter
          (fun t => if 0 ≤ t ∧ t < 1 then true else false) :=
        List.mem_filter.mpr ⟨solveQuadratic_complete hnz hr1, by rw [if_pos ⟨h10, h11⟩]⟩
      have ht2 : t2 ∈ (solveQuadratic ay3 by2 cy).filter
          (fun t => if 0 ≤ t ∧ t < 1 then true else false) :=
        List.mem_filter.mpr ⟨solveQuadratic_complete hnz hr2, by rw [if_pos ⟨h20, h21⟩]⟩
      cases hF : (solveQuadratic ay3 by2 cy).filter
          (fun t => if 0 ≤ t ∧ t < 1 then true else false) with
      | nil => rw [hF] at ht1; cases ht1
      | cons x tail =>
          cases tail with
          | nil =>
              rw [hF, List.mem_singleton] at ht1 ht2
              exact absurd (ht1.trans ht2.symm) hne
          | cons y rest => exact sca_of_filter_cons2 hco bd hF
  refine ⟨hiff, fun e herr => (herrchar e herr).1, ?_⟩
  · intro hnc
    have hne := (not_iff_not.mpr hiff).mpr hnc
    cases hval : splitCurveAtAngle p1 p2 p3 p4 angle bd with
    | ok v => exact ⟨v, rfl⟩
    | error e =>
        have he := (herrchar e hval).1
        rw [he] at hval
        exact absurd hval hne

/-- C6 counterexample: a horizontal-line cubic at angle zero has an
identically zero derivative quadratic, so 0 and one half are two distinct
roots in the unit interval, yet splitCurveAtAngle reports no failure and
returns the curve unchanged, refuting the claimed iff. -/
theorem C6_splitCurveAtAngle_counterexample :
    splitCurveAtAngle ((0 : ℝ), 0) (1, 0) (2, 0) (3, 0) 0 false =
      .ok ([((0 : ℝ), 0), (1, 0), (2, 0), (3, 0)], none) ∧
    scaCoeffs ((0 : ℝ), 0) (1, 0) (2, 0) (3, 0) 0 = ((0, 0), (0, 0), (3, 0)) ∧
    ((0 : ℝ) ≠ 1 / 2) ∧ (0 ≤ (0 : ℝ) ∧ (0 : ℝ) < 1) ∧
    (0 ≤ (1 / 2 : ℝ) ∧ (1 / 2 : ℝ) < 1) ∧
    ((0 : ℝ) * 0 ^ 2 + 0 * 0 + 0 = 0) ∧
    ((0 : ℝ) * (1 / 2) ^ 2 + 0 * (1 / 2) + 0 = 0) := by
  have hco : scaCoeffs ((0 : ℝ), 0) (1, 0) (2, 0) (3, 0) 0 =
      ((0, 0), (0, 0), (3, 0)) := by
    simp only [scaCoeffs, rotPoint, calcCubicParameters, Real.cos_zero, Real.sin_zero]
    norm_num
  refine ⟨?_, hco, by norm_num, by norm_num, by norm_num, by norm_num, by norm_num⟩
  exact sca_of_filter_nil hco false (by rw [solveQuadratic_zero]; rfl)

/-- Witness for C6 amended: a cubic whose derivative quadratic has the two
distinct roots one quarter and three quarters aborts with the explicit
"curve too complex" error. -/
theorem C6_splitCurveAtAngle_error_witness :
    splitCurveAtAngle ((0 : ℝ), 0) (1, 1 / 16) (2, -1 / 24) (3, 1 / 48) 0 false =
      .error "curve too complex" := by
  have hco : scaCoeffs ((0 : ℝ), 0) (1, 1 / 16) (2, -1 / 24) (3, 1 / 48) 0 =
      ((0, 1), (0, -1), (3, 3 / 16)) := by
    simp only [scaCoeffs, rotPoint, calcCubicParameters, Real.cos_zero, Real.sin_zero]
    norm_num
  exact (C6_splitCurveAtAngle_error _ _ _ _ 0 0 1 0 (-1) 3 (3 / 16) hco false).1.mpr
    ⟨by norm_num, 1 / 4, 3 / 4, by norm_num, by norm_num, by norm_num, by norm_num,
      by norm_num, by norm_num, by norm_num⟩

theorem extrudeContour_spec {K : Type} [LinearOrderedField K]
    (c1 c2 : Contour K) (reverse : Bool)
    (h1 : c1.segments ≠ []) (hp1 : ∀ s ∈ c1.segments, s.points ≠ [])
    (h2 : c2.segments ≠ []) (hp2 : ∀ s ∈ c2.segments, s.points ≠ [])
    (hlen : c2.segments.length = c1.segments.length) :
    ∃ ec : Contour K, extrudeContour c1 c2 reverse = some ec ∧
      ec.closed = true ∧
      ec.segments.length = c1.segments.length * 2 + 2 ∧
      ∃ pt : Point K, (ec.segments.head?.bind (fun s => s.points.head?)) = some pt ∧
        (ec.segments.getLast?.bind (fun s => s.points.getLast?)) = some pt := by
  have h2' : (c2.reverse).segments ≠ [] := by
    rw [Contour.reverse]
    simp only [ne_eq, List.map_eq_nil_iff, List.reverse_eq_nil_iff]
    exact h2
  have hp2' : ∀ s ∈ (c2.reverse).segments, s.points ≠ [] := by
    intro s hs
    rw [Contour.reverse] at hs
    obtain ⟨s0, hs0, hse⟩ := List.mem_map.mp hs
    rw [← hse, Segment.reverse]
    simp only [ne_eq, List.reverse_eq_nil_iff]
    exact hp2 s0 (List.mem_reverse.mp hs0)
  obtain ⟨l1, hl1⟩ := Option.isSome_iff_exists.mp (List.getLast?_isSome.mpr h1)
  obtain ⟨lp1, hlp1⟩ := Option.isSome_iff_exists.mp
    (List.getLast?_isSome.mpr (hp1 l1 (List.mem_of_mem_getLast? hl1)))
  obtain ⟨f2, hf2⟩ := Option.isSome_iff_exists.mp (List.head?_isSome.mpr h2')
  obtain ⟨fp2, hfp2⟩ := Option.isSome_iff_exists.mp
    (List.head?_isSome.mpr (hp2' f2 (List.mem_of_mem_head? hf2)))
  obtain ⟨l2, hl2⟩ := Option.isSome_iff_exists.mp (List.getLast?_isSome.mpr h2')
  obtain ⟨lp2, hlp2⟩ := Option.isSome_iff_exists.mp
    (List.getLast?_isSome.mpr (hp2' l2 (List.mem_of_mem_getLast? hl2)))
  obtain ⟨f1, hf1⟩ := Option.isSome_iff_exists.mp (List.head?_isSome.mpr h1)
  obtain ⟨fp1, hfp1⟩ := Option.isSome_iff_exists.mp
    (List.head?_isSome.mpr (hp1 f1 (List.mem_of_mem_head? hf1)))
  have heval : extrudeContour c1 c2 reverse =
      some (if reverse
        then (Contour.mk (c1.segments ++ [⟨[lp1, fp2]⟩] ++ (c2.reverse).segments ++
          [⟨[lp2, fp1]⟩]) true).reverse
        else ⟨c1.segments ++ [⟨[lp1, fp2]⟩] ++ (c2.reverse).segments ++
          [⟨[lp2, fp1]⟩], true⟩) := by
    simp only [extrudeContour, hl1, hlp1, hf2, hfp2, hl2, hlp2, hf1, hfp1,
      Option.bind_eq_bind, Option.some_bind]
  have hlen2 : (c2.reverse).segments.length = c1.segments.length := by
    rw [Contour.reverse]
    simp [hlen]
  have hcount : (c1.segments ++ [(⟨[lp1, fp2]⟩ : Segment K)] ++ (c2.reverse).segments ++
      [(⟨[lp2, fp1]⟩ : Segment K)]).length = c1.segments.length * 2 + 2 := by
    simp [hlen2]
    ring
  cases reverse with
  | false =>
      refine ⟨⟨c1.segments ++ [⟨[lp1, fp2]⟩] ++ (c2.reverse).segments ++ [⟨[lp2, fp1]⟩],
        true⟩, by simpa using heval, rfl, hcount, fp1, ?_, ?_⟩
      · show ((c1.segments ++ [(⟨[lp1, fp2]⟩ : Segment K)] ++ (c2.reverse).segments ++
          [(⟨[lp2, fp1]⟩ : Segment K)]).head?.bind (fun s => s.points.head?)) = some fp1
        rw [List.head?_append, List.head?_append, List.head?_append, hf1]
        simp [hfp1]
      · show ((c1.segments ++ [(⟨[lp1, fp2]⟩ : Segment K)] ++ (c2.reverse).segments ++
          [(⟨[lp2, fp1]⟩ : Segment K)]).getLast?.bind (fun s => s.points.getLast?)) =
          some fp1
        rw [List.getLast?_concat]
        simp
  | true =>
      refine ⟨(Contour.mk (c1.segments ++ [⟨[lp1, fp2]⟩] ++ (c2.reverse).segments ++
        [⟨[lp2, fp1]⟩]) true).reverse, by simpa using heval, rfl, ?_, fp1, ?_, ?_⟩
      · show (((c1.segments ++ [(⟨[lp1, fp2]⟩ : Segment K)] ++ (c2.reverse).segments ++
          [(⟨[lp2, fp1]⟩ : Segment K)]).reverse).map Segment.reverse).length =
          c1.segments.length * 2 + 2
        rw [List.length_map, List.length_reverse]
        exact hcount
      · show ((((c1.segments ++ [(⟨[lp1, fp2]⟩ : Segment K)] ++ (c2.reverse).segments ++
          [(⟨[lp2, fp1]⟩ : Segment K)]).reverse).map Segment.reverse).head?.bind
          (fun s => s.points.head?)) = some fp1
        rw [List.head?_map, List.head?_reverse, List.getLast?_concat]
        simp [Segment.reverse]
      · show ((((c1.segments ++ [(⟨[lp1, fp2]⟩ : Segment K)] ++ (c2.reverse).segments ++
          [(⟨[lp2, fp1]⟩ : Segment K)]).reverse).map Segment.reverse).getLast?.bind
          (fun s => s.points.getLast?)) = some fp1
        rw [List.getLast?_map, List.getLast?_reverse]
        rw [List.head?_append, List.head?_append, List.head?_append, hf1]
        simp [Segment.reverse, List.getLast?_reverse, hfp1]

theorem extrude_mapM {K : Type} [LinearOrderedField K] :
    ∀ (cs : List (Contour K)) (dx dy : K) (reverse : Bool),
    (∀ c ∈ cs, c.segments ≠ [] ∧ ∀ s ∈ c.segments, s.points ≠ []) →
    ∃ out : List (Contour K),
      ((cs.zip (cs.map (fun c => c.translate dx dy))).mapM
        (fun pr => extrudeContour pr.1 pr.2 reverse)) = some out ∧
      out.length = cs.length ∧
      ∀ (i : ℕ) (c : Contour K), cs[i]? = some c → ∃ ec : Contour K,
        out[i]? = some ec ∧ ec.closed = true ∧
        ec.segments.length = c.segments.length * 2 + 2 ∧
        ∃ pt : Point K, (ec.segments.head?.bind (fun s => s.points.head?)) = some pt ∧
          (ec.segments.getLast?.bind (fun s => s.points.getLast?)) = some pt := by
  intro cs
  induction cs with
  | nil =>
      intro dx dy reverse _
      exact ⟨[], rfl, rfl, fun i c hc => by rw [List.getElem?_nil] at hc; cases hc⟩
  | cons c rest ih =>
      intro dx dy reverse h
      obtain ⟨hne, hpts⟩ := h c (List.mem_cons_self _ _)
      have hrest : ∀ c2 ∈ rest, c2.segments ≠ [] ∧ ∀ s ∈ c2.segments, s.points ≠ [] :=
        fun c2 hm => h c2 (List.mem_cons_of_mem _ hm)
      have htne : (c.translate dx dy).segments ≠ [] := by
        rw [Contour.translate]
        simpa using hne
      have htpts : ∀ s ∈ (c.translate dx dy).segments, s.points ≠ [] := by
        intro s hs
        rw [Contour.translate] at hs
        obtain ⟨s0, hs0, hse⟩ := List.mem_map.mp hs
        rw [← hse, Segment.translate]
        simpa using hpts s0 hs0
      have htlen : (c.translate dx dy).segments.length = c.segments.length := by
        rw [Contour.translate]
        simp
      obtain ⟨ec, hec, hcl, hcount, pt, hhd, hlast⟩ :=
        extrudeContour_spec c (c.translate dx dy) reverse hne hpts htne htpts htlen
      obtain ⟨out, hout, hlen, hidx⟩ := ih dx dy reverse hrest
      refine ⟨ec :: out, ?_, by simp [hlen], ?_⟩
      · rw [List.map_cons, List.zip_cons_cons, List.mapM_cons, hec]
        simp only [Option.bind_eq_bind, Option.some_bind, hout, Option.pure_def]
      · intro i c2 hc2
        cases i with
        | zero =>
            rw [List.getElem?_cons_zero] at hc2
            injection hc2 with hc2
            subst hc2
            exact ⟨ec, List.getElem?_cons_zero, hcl, hcount, pt, hhd, hlast⟩
        | succ n =>
            rw [List.getElem?_cons_succ] at hc2
            obtain ⟨ec2, he2, h2⟩ := hidx n c2 hc2
            exact ⟨ec2, by rw [List.getElem?_cons_succ]; exact he2, h2⟩

/-- C4: for every path of nonempty contours, every angle, depth and reverse
flag, extrudePath succeeds, and the ribbon contour produced for each closed
input contour with n segments is closed, has exactly n*2+2 segments, and its
first segment's start point equals its last segment's end point. -/
theorem C4_extrudePath (path : Path ℝ) (angle depth : ℝ) (reverse : Bool)
    (hseg : ∀ c ∈ path.contours, c.segments ≠ [] ∧ ∀ s ∈ c.segments, s.points ≠ []) :
    ∃ ep : Path ℝ, extrudePath path angle depth reverse = some ep ∧
      ep.contours.length = path.contours.length ∧
      ∀ (i : ℕ) (c : Contour ℝ), path.contours[i]? = some c → c.closed = true →
        ∃ ec : Contour ℝ, ep.contours[i]? = some ec ∧
          ec.closed = true ∧
          ec.segments.length = c.segments.length * 2 + 2 ∧
          ∃ pt : Point ℝ,
            (ec.segments.head?.bind (fun s => s.points.head?)) = some pt ∧
            (ec.segments.getLast?.bind (fun s => s.points.getLast?)) = some pt := by
  obtain ⟨out, hout, hlen, hidx⟩ := extrude_mapM path.contours
    (depth * Real.cos angle) (depth * Real.sin angle) reverse hseg
  refine ⟨⟨out⟩, ?_, hlen, ?_⟩
  · simp only [extrudePath, Path.translate, hout, Option.bind_eq_bind, Option.some_bind]
  · intro i c hc _
    exact hidx i c hc

/-- Witness for C4 at a concrete one-segment closed contour, angle 0,
depth 1. -/
theorem C4_extrudePath_witness :
    ∃ ep : Path ℝ,
      extrudePath ⟨[⟨[⟨[((0 : ℝ), 0), (1, 0)]⟩], true⟩]⟩ 0 1 false = some ep ∧
      ep.contours.length = 1 ∧
      ∀ (i : ℕ) (c : Contour ℝ),
        (Path.mk [⟨[⟨[((0 : ℝ), 0), (1, 0)]⟩], true⟩] : Path ℝ).contours[i]? = some c →
        c.closed = true →
        ∃ ec : Contour ℝ, ep.contours[i]? = some ec ∧
          ec.closed = true ∧
          ec.segments.length = c.segments.length * 2 + 2 ∧
          ∃ pt : Point ℝ,
            (ec.segments.head?.bind (fun s => s.points.head?)) = some pt ∧
            (ec.segments.getLast?.bind (fun s => s.points.getLast?)) = some pt :=
  C4_extrudePath ⟨[⟨[⟨[((0 : ℝ), 0), (1, 0)]⟩], true⟩]⟩ 0 1 false
    (by
      intro c hc
      rcases List.mem_singleton.mp hc with rfl
      constructor
      · simp
      · intro s hs
        rcases List.mem_singleton.mp hs with rfl
        simp)

/-- C7: splitAtAngle on a contour that is not closed, splitAtAngle on a
closed contour whose first point does not coincide with its last point, and
splitAtSharpCorners on a closed contour each fail immediately with an
explicit error before producing any output, and the three errors are
pairwise distinguishable. -/
theorem C7_precondition_errors :
    (∀ (c : Contour ℝ) (angle : ℝ), c.closed = false →
      c.splitAtAngle angle = .error "assert self.closed") ∧
    (∀ (c : Contour ℝ) (angle : ℝ) (fp lp : Point ℝ), c.closed = true →
      (c.segments.head?.bind (fun s => s.points.head?)) = some fp →
      (c.segments.getLast?.bind (fun s => s.points.getLast?)) = some lp →
      fp ≠ lp →
      c.splitAtAngle angle = .error "assert first point equals last point") ∧
    (∀ c : Contour ℝ, c.closed = true →
      c.splitAtSharpCorners = .error "assert not self.closed") ∧
    ("assert self.closed" ≠ "assert first point equals last point" ∧
     "assert self.closed" ≠ "assert not self.closed" ∧
     "assert first point equals last point" ≠ "assert not self.closed") := by
  refine ⟨?_, ?_, ?_, by decide, by decide, by decide⟩
  · intro c angle h
    simp [Contour.splitAtAngle, h]
  · intro c angle fp lp hclosed hfp hlp hne
    simp [Contour.splitAtAngle, hclosed, hfp, hlp, hne]
  · intro c h
    simp [Contour.splitAtSharpCorners, h]

/-- Witness for C7 at concrete contours. -/
theorem C7_precondition_errors_witness :
    (Contour.mk [⟨[((0 : ℝ), 0), (1, 0)]⟩] false).splitAtAngle 0 =
      .error "assert self.closed" ∧
    (Contour.mk [⟨[((0 : ℝ), 0), (1, 0)]⟩] true).splitAtAngle 0 =
      .error "assert first point equals last point" ∧
    (Contour.mk [⟨[((0 : ℝ), 0), (1, 0)]⟩] true).splitAtSharpCorners =
      .error "assert not self.closed" :=
  ⟨C7_precondition_errors.1 _ 0 rfl,
   C7_precondition_errors.2.1 _ 0 (0, 0) (1, 0) rfl rfl rfl
     (by norm_num [Prod.ext_iff]),
   C7_precondition_errors.2.2.1 _ rfl⟩

theorem appendLast_cons_cons {K : Type} (a b : List (Segment K))
    (t : List (List (Segment K))) (s : Segment K) :
    appendLast (a :: b :: t) s = a :: appendLast (b :: t) s := by
  rw [appendLast, appendLast]
  cases hg : (b :: t).getLast? with
  | none => exact absurd (List.getLast?_eq_none_iff.mp hg) (by simp)
  | some g =>
      rw [List.getLast?_cons_cons, hg]
      rfl

theorem mem_appendLast {K : Type} (groups : List (List (Segment K))) (s x : Segment K) :
    x ∈ flatSegs (appendLast groups s) ↔ x ∈ flatSegs groups ∨ x = s := by
  induction groups with
  | nil => simp [appendLast, flatSegs]
  | cons g t ih =>
      cases t with
      | nil =>
          simp [appendLast, flatSegs, or_assoc]
      | cons g2 t2 =>
          rw [appendLast_cons_cons]
          simp only [flatSegs, List.flatMap_cons, List.mem_append, id] at ih ⊢
          rw [ih]
          tauto

theorem flatSegs_append_nilGroup {K : Type} (groups : List (List (Segment K))) :
    flatSegs (groups ++ [[]]) = flatSegs groups := by
  simp [flatSegs]

theorem SplitState.get_set_same {K : Type} (st : SplitState K) (b : Bool)
    (g : List (List (Segment K))) : (st.set b g).get b = g := by
  cases b <;> simp [SplitState.get, SplitState.set]

theorem SplitState.get_set_other {K : Type} (st : SplitState K) (b : Bool)
    (g : List (List (Segment K))) : (st.set b g).get (! b) = st.get (! b) := by
  cases b <;> simp [SplitState.get, SplitState.set]

theorem mem_pushSeg_same {K : Type} (st : SplitState K) (b : Bool) (s x : Segment K) :
    x ∈ flatSegs ((st.pushSeg b s).get b) ↔ x ∈ flatSegs (st.get b) ∨ x = s := by
  rw [SplitState.pushSeg, SplitState.get_set_same]
  by_cases hp : st.previousSide ≠ some b
  · rw [if_pos hp, mem_appendLast, flatSegs_append_nilGroup]
  · rw [if_neg hp, mem_appendLast]

theorem pushSeg_other {K : Type} (st : SplitState K) (b : Bool) (s : Segment K) :
    (st.pushSeg b s).get (! b) = st.get (! b) := by
  rw [SplitState.pushSeg, SplitState.get_set_other]

theorem side0_eq_get {K : Type} (st : SplitState K) : st.side0 = st.get false := rfl

theorem side1_eq_get {K : Type} (st : SplitState K) : st.side1 = st.get true := rfl

theorem splitLoop_lines (aX aY angle : ℝ) :
    ∀ (segs : List (Segment ℝ)) (st : SplitState ℝ),
    (∀ s ∈ segs, ∃ q1 q2 : Point ℝ, s.points = [q1, q2]) →
    ∃ st' : SplitState ℝ, splitLoop aX aY angle st segs = .ok st' ∧
      (∀ x : Segment ℝ, x ∈ flatSegs st'.side0 ↔ x ∈ flatSegs st.side0 ∨
        (x ∈ segs ∧ ¬ 0 ≤ whichSide (aX, aY) (entryDelta x))) ∧
      (∀ x : Segment ℝ, x ∈ flatSegs st'.side1 ↔ x ∈ flatSegs st.side1 ∨
        (x ∈ segs ∧ 0 ≤ whichSide (aX, aY) (entryDelta x))) := by
  intro segs
  induction segs with
  | nil =>
      intro st _
      exact ⟨st, rfl, fun x => by simp, fun x => by simp⟩
  | cons seg rest ih =>
      intro st hlines
      obtain ⟨q1, q2, hq⟩ := hlines seg (List.mem_cons_self _ _)
      have hrest : ∀ s ∈ rest, ∃ q1 q2 : Point ℝ, s.points = [q1, q2] :=
        fun s hs => hlines s (List.mem_cons_of_mem _ hs)
      have hdelta : entryDelta seg = (q2.1 - q1.1, q2.2 - q1.2) := by
        rw [entryDelta, hq]
      by_cases hside : 0 ≤ whichSide (aX, aY) (q2.1 - q1.1, q2.2 - q1.2)
      · have hsideseg : 0 ≤ whichSide (aX, aY) (entryDelta seg) := by
          rw [hdelta]; exact hside
        have hstep : splitStep aX aY angle st seg =
            .ok { st.pushSeg true seg with previousSide := some true } := by
          simp only [splitStep, hq, if_pos hside]
        obtain ⟨st', hloop, h0, h1⟩ :=
          ih ({ st.pushSeg true seg with previousSide := some true }) hrest
        have hs0 : ({ st.pushSeg true seg with
            previousSide := some true } : SplitState ℝ).side0 = st.side0 := by
          show (st.pushSeg true seg).side0 = st.side0
          rw [side0_eq_get, side0_eq_get]
          exact pushSeg_other st true seg
        have hs1 : ∀ x : Segment ℝ, x ∈ flatSegs ({ st.pushSeg true seg with
            previousSide := some true } : SplitState ℝ).side1 ↔
            x ∈ flatSegs st.side1 ∨ x = seg := by
          intro x
          show x ∈ flatSegs (st.pushSeg true seg).side1 ↔ _
          rw [side1_eq_get, side1_eq_get]
          exact mem_pushSeg_same st true seg x
        refine ⟨st', ?_, ?_, ?_⟩
        · rw [splitLoop, hstep]
          exact hloop
        · intro x
          rw [h0 x, hs0]
          constructor
          · rintro (hA | ⟨hr, hs⟩)
            · exact Or.inl hA
            · exact Or.inr ⟨List.mem_cons_of_mem _ hr, hs⟩
          · rintro (hA | ⟨hc, hs⟩)
            · exact Or.inl hA
            · rcases List.mem_cons.mp hc with rfl | hr
              · exact absurd hsideseg hs
              · exact Or.inr ⟨hr, hs⟩
        · intro x
          rw [h1 x]
          constructor
          · rintro (hA | ⟨hr, hs⟩)
            · rcases (hs1 x).mp hA with hB | rfl
              · exact Or.inl hB
              · exact Or.inr ⟨List.mem_cons_self _ _, hsideseg⟩
            · exact Or.inr ⟨List.mem_cons_of_mem _ hr, hs⟩
          · rintro (hA | ⟨hc, hs⟩)
            · exact Or.inl ((hs1 x).mpr (Or.inl hA))
            · rcases List.mem_cons.mp hc with rfl | hr
              · exact Or.inl ((hs1 x).mpr (Or.inr rfl))
              · exact Or.inr ⟨hr, hs⟩
      · have hsideseg : ¬ 0 ≤ whichSide (aX, aY) (entryDelta seg) := by
          rw [hdelta]; exact hside
        have hstep : splitStep aX aY angle st seg =
            .ok { st.pushSeg false seg with previousSide := some false } := by
          simp only [splitStep, hq, if_neg hside]
        obtain ⟨st', hloop, h0, h1⟩ :=
          ih ({ st.pushSeg false seg with previousSide := some false }) hrest
        have hs1 : ({ st.pushSeg false seg with
            previousSide := some false } : SplitState ℝ).side1 = st.side1 := by
          show (st.pushSeg false seg).side1 = st.side1
          rw [side1_eq_get, side1_eq_get]
          exact pushSeg_other st false seg
        have hs0 : ∀ x : Segment ℝ, x ∈ flatSegs ({ st.pushSeg false seg with
            previousSide := some false } : SplitState ℝ).side0 ↔
            x ∈ flatSegs st.side0 ∨ x = seg := by
          intro x
          show x ∈ flatSegs (st.pushSeg false seg).side0 ↔ _
          rw [side0_eq_get, side0_eq_get]
          exact mem_pushSeg_same st false seg x
        refine ⟨st', ?_, ?_, ?_⟩
        · rw [splitLoop, hstep]
          exact hloop
        · intro x
          rw [h0 x]
          constructor
          · rintro (hA | ⟨hr, hs⟩)
            · rcases (hs0 x).mp hA with hB | rfl
              · exact Or.inl hB
              · exact Or.inr ⟨List.mem_cons_self _ _, hsideseg⟩
            · exact Or.inr ⟨List.mem_cons_of_mem _ hr, hs⟩
          · rintro (hA | ⟨hc, hs⟩)
            · exact Or.inl ((hs0 x).mpr (Or.inl hA))
            · rcases List.mem_cons.mp hc with rfl | hr
              · exact Or.inl ((hs0 x).mpr (Or.inr rfl))
              · exact Or.inr ⟨hr, hs⟩
        · intro x
          rw [h1 x, hs1]
          constructor
          · rintro (hA | ⟨hr, hs⟩)
            · exact Or.inl hA
            · exact Or.inr ⟨List.mem_cons_of_mem _ hr, hs⟩
          · rintro (hA | ⟨hc, hs⟩)
            · exact Or.inl hA
            · rcases List.mem_cons.mp hc with rfl | hr
              · exact absurd hs hsideseg.elim
              · exact Or.inr ⟨hr, hs⟩

theorem mem_wrapMerge {K : Type} [LinearOrderedField K]
    (groups : List (List (Segment K))) (x : Segment K) :
    x ∈ flatSegs (wrapMerge groups) ↔ x ∈ flatSegs groups := by
  rw [wrapMerge]
  split_ifs with h
  · obtain ⟨hlen, _⟩ := h
    obtain ⟨g0, gs, rfl⟩ : ∃ g0 gs, groups = g0 :: gs := by
      cases groups with
      | nil => simp at hlen
      | cons a t => exact ⟨a, t, rfl⟩
    have hgs : gs ≠ [] := by
      intro h0
      subst h0
      simp at hlen
    have hlast : (g0 :: gs).getLastD [] = gs.getLast hgs := by
      rw [List.getLastD_eq_getLast?, getLast?_cons_ne _ hgs,
        List.getLast?_eq_getLast _ hgs, Option.getD_some]
    have hdecomp : gs.dropLast ++ [gs.getLast hgs] = gs :=
      List.dropLast_concat_getLast hgs
    rw [hlast]
    show x ∈ flatSegs ((gs.getLast hgs ++ g0) :: gs.dropLast) ↔
      x ∈ flatSegs (g0 :: gs)
    conv_rhs => rw [← hdecomp]
    simp only [flatSegs, List.flatMap_cons, id, List.mem_append,
      List.flatMap_append, List.flatMap_nil, List.append_nil]
    tauto
  · exact Iff.rfl

theorem mem_pathOfGroups {K : Type} (groups : List (List (Segment K))) (x : Segment K) :
    (x ∈ (Path.mk (groups.map (fun g => Contour.mk g false))).contours.flatMap
      Contour.segments) ↔ x ∈ flatSegs groups := by
  simp only [List.mem_flatMap, List.mem_map, flatSegs]
  constructor
  · rintro ⟨cnt, ⟨g, hg, rfl⟩, hx⟩
    exact ⟨g, hg, hx⟩
  · rintro ⟨g, hg, hx⟩
    exact ⟨⟨g, false⟩, ⟨g, hg, rfl⟩, hx⟩

theorem splitAtAngle_lines_spec (c : Contour ℝ) (angle : ℝ)
    (hclosed : c.closed = true) (fp : Point ℝ)
    (hfp : (c.segments.head?.bind (fun s => s.points.head?)) = some fp)
    (hlp : (c.segments.getLast?.bind (fun s => s.points.getLast?)) = some fp)
    (hlines : ∀ s ∈ c.segments, ∃ q1 q2 : Point ℝ, s.points = [q1, q2]) :
    ∃ P0 P1 : Path ℝ, c.splitAtAngle angle = .ok (P0, P1) ∧
      (∀ s ∈ P0.contours.flatMap Contour.segments,
        ¬ 0 ≤ whichSide (Real.cos angle, Real.sin angle) (entryDelta s)) ∧
      (∀ s ∈ P1.contours.flatMap Contour.segments,
        0 ≤ whichSide (Real.cos angle, Real.sin angle) (entryDelta s)) ∧
      (∀ s ∈ c.segments, s ∈ P0.contours.flatMap Contour.segments ∨
        s ∈ P1.contours.flatMap Contour.segments) := by
  obtain ⟨st', hloop, h0, h1⟩ := splitLoop_lines (Real.cos angle) (Real.sin angle)
    angle c.segments ⟨[], [], none⟩ hlines
  refine ⟨⟨(wrapMerge st'.side0).map (fun g => ⟨g, false⟩)⟩,
          ⟨(wrapMerge st'.side1).map (fun g => ⟨g, false⟩)⟩, ?_, ?_, ?_, ?_⟩
  · simp only [Contour.splitAtAngle, hclosed, hfp, hlp, hloop]
    simp
  · intro s hs
    have hs2 := (mem_wrapMerge _ _).mp ((mem_pathOfGroups _ _).mp hs)
    rcases (h0 s).mp hs2 with hA | ⟨_, hw⟩
    · simp [flatSegs] at hA
    · exact hw
  · intro s hs
    have hs2 := (mem_wrapMerge _ _).mp ((mem_pathOfGroups _ _).mp hs)
    rcases (h1 s).mp hs2 with hA | ⟨_, hw⟩
    · simp [flatSegs] at hA
    · exact hw
  · intro s hs
    by_cases hw : 0 ≤ whichSide (Real.cos angle, Real.sin angle) (entryDelta s)
    · refine Or.inr ((mem_pathOfGroups _ _).mpr ((mem_wrapMerge _ _).mpr ?_))
      exact (h1 s).mpr (Or.inr ⟨hs, hw⟩)
    · refine Or.inl ((mem_pathOfGroups _ _).mpr ((mem_wrapMerge _ _).mpr ?_))
      exact (h0 s).mpr (Or.inr ⟨hs, hw⟩)

/-- C2 counterexample: splitting the square at angle 0 places the left edge,
whose chord cross product with the angle direction is non-negative, in the
SECOND returned Path and not in the first, refuting the claim that
non-negative cross products are collected into the first Path. -/
theorem scaCoeffs_cy (p1 p2 p3 p4 : Point ℝ) (angle : ℝ) :
    (scaCoeffs p1 p2 p3 p4 angle).2.2.2 =
      3 * whichSide (Real.cos angle, Real.sin angle)
        (p2.1 - p1.1, p2.2 - p1.2) := by
  simp only [scaCoeffs, calcCubicParameters, rotPoint, whichSide]
  ring

theorem scaCoeffs_sum (p1 p2 p3 p4 : Point ℝ) (angle : ℝ) :
    (scaCoeffs p1 p2 p3 p4 angle).1.2 + (scaCoeffs p1 p2 p3 p4 angle).2.1.2 +
        (scaCoeffs p1 p2 p3 p4 angle).2.2.2 =
      3 * whichSide (Real.cos angle, Real.sin angle)
        (p4.1 - p3.1, p4.2 - p3.2) := by
  simp only [scaCoeffs, calcCubicParameters, rotPoint, whichSide]
  ring

theorem split_c1_entryCross (p1 p2 p3 p4 : Point ℝ) (angle t : ℝ) :
    entryCross angle ⟨(splitCubicAtT p1 p2 p3 p4 t).1⟩ =
      t * whichSide (Real.cos angle, Real.sin angle)
        (p2.1 - p1.1, p2.2 - p1.2) := by
  simp only [entryCross, splitCubicAtT, lerp, entryDelta, whichSide]
  ring

theorem split_c1_exitCross (p1 p2 p3 p4 : Point ℝ) (angle t : ℝ) :
    exitCross angle ⟨(splitCubicAtT p1 p2 p3 p4 t).1⟩ =
      t * ((scaCoeffs p1 p2 p3 p4 angle).1.2 * t ^ 2 +
        (scaCoeffs p1 p2 p3 p4 angle).2.1.2 * t +
        (scaCoeffs p1 p2 p3 p4 angle).2.2.2) / 3 := by
  simp only [exitCross, splitCubicAtT, lerp, exitDelta, entryDelta, whichSide,
    scaCoeffs, calcCubicParameters, rotPoint]
  ring

theorem split_c2_entryCross (p1 p2 p3 p4 : Point ℝ) (angle t : ℝ) :
    entryCross angle ⟨(splitCubicAtT p1 p2 p3 p4 t).2⟩ =
      (1 - t) * ((scaCoeffs p1 p2 p3 p4 angle).1.2 * t ^ 2 +
        (scaCoeffs p1 p2 p3 p4 angle).2.1.2 * t +
        (scaCoeffs p1 p2 p3 p4 angle).2.2.2) / 3 := by
  simp only [entryCross, splitCubicAtT, lerp, entryDelta, whichSide,
    scaCoeffs, calcCubicParameters, rotPoint]
  ring

theorem split_c2_exitCross (p1 p2 p3 p4 : Point ℝ) (angle t : ℝ) :
    exitCross angle ⟨(splitCubicAtT p1 p2 p3 p4 t).2⟩ =
      (1 - t) * whichSide (Real.cos angle, Real.sin angle)
        (p4.1 - p3.1, p4.2 - p3.2) := by
  simp only [exitCross, splitCubicAtT, lerp, exitDelta, entryDelta, whichSide]
  ring

theorem quad_root_in_Ico {a b c : ℝ} (h0 : 0 ≤ c) (h1 : a + b + c < 0) :
    ∃ t, 0 ≤ t ∧ t < 1 ∧ a * t ^ 2 + b * t + c = 0 := by
  have hcont : ContinuousOn (fun t : ℝ => a * t ^ 2 + b * t + c)
      (Set.Icc 0 1) := by
    apply Continuous.continuousOn
    continuity
  have hsub := intermediate_value_Icc' (by norm_num : (0 : ℝ) ≤ 1) hcont
  have hmem : (0 : ℝ) ∈ Set.Icc ((fun t : ℝ => a * t ^ 2 + b * t + c) 1)
      ((fun t : ℝ => a * t ^ 2 + b * t + c) 0) := by
    simp only [Set.mem_Icc]
    constructor
    · nlinarith [h1]
    · simpa using h0
  obtain ⟨t, htIcc, hft⟩ := hsub hmem
  refine ⟨t, htIcc.1, ?_, hft⟩
  rcases lt_or_eq_of_le htIcc.2 with h | h
  · exact h
  · exfalso
    rw [h] at hft
    have h2 : a + b + c = 0 := by linear_combination hft
    linarith

theorem no_filtered_root {A B C : ℝ} (hC : 0 ≤ C) (hsum : A + B + C < 0)
    (hfil : (solveQuadratic A B C).filter
      (fun t => if 0 ≤ t ∧ t < 1 then true else false) = []) : False := by
  obtain ⟨t, ht0, ht1, hroot⟩ := quad_root_in_Ico hC hsum
  have hnz : ¬ (A = 0 ∧ B = 0 ∧ C = 0) := by
    rintro ⟨rfl, rfl, rfl⟩
    simp at hsum
  have hmem := solveQuadratic_complete hnz hroot
  have hin : t ∈ (solveQuadratic A B C).filter
      (fun t => if 0 ≤ t ∧ t < 1 then true else false) := by
    rw [List.mem_filter]
    exact ⟨hmem, by rw [if_pos ⟨ht0, ht1⟩]⟩
  rw [hfil] at hin
  cases hin

theorem pushSeg_flat0 {K : Type} (st : SplitState K) (b : Bool) (s x : Segment K)
    (hx : x ∈ flatSegs (st.pushSeg b s).side0) :
    x ∈ flatSegs st.side0 ∨ (b = false ∧ x = s) := by
  cases b
  · rw [side0_eq_get] at hx
    rcases (mem_pushSeg_same st false s x).mp hx with h | h
    · exact Or.inl (by rw [side0_eq_get]; exact h)
    · exact Or.inr ⟨rfl, h⟩
  · rw [side0_eq_get] at hx
    have heq := pushSeg_other st true s
    rw [show (!true) = false from rfl] at heq
    rw [heq] at hx
    exact Or.inl (by rw [side0_eq_get]; exact hx)

theorem pushSeg_flat1 {K : Type} (st : SplitState K) (b : Bool) (s x : Segment K)
    (hx : x ∈ flatSegs (st.pushSeg b s).side1) :
    x ∈ flatSegs st.side1 ∨ (b = true ∧ x = s) := by
  cases b
  · rw [side1_eq_get] at hx
    have heq := pushSeg_other st false s
    rw [show (!false) = true from rfl] at heq
    rw [heq] at hx
    exact Or.inl (by rw [side1_eq_get]; exact hx)
  · rw [side1_eq_get] at hx
    rcases (mem_pushSeg_same st true s x).mp hx with h | h
    · exact Or.inl (by rw [side1_eq_get]; exact h)
    · exact Or.inr ⟨rfl, h⟩

theorem mem_pushNew_same {K : Type} (st : SplitState K) (b : Bool) (s x : Segment K) :
    x ∈ flatSegs ((st.pushNew b s).get b) ↔ x ∈ flatSegs (st.get b) ∨ x = s := by
  rw [SplitState.pushNew, SplitState.get_set_same]
  simp [flatSegs]

theorem pushNew_other {K : Type} (st : SplitState K) (b : Bool) (s : Segment K) :
    (st.pushNew b s).get (!b) = st.get (!b) := by
  rw [SplitState.pushNew, SplitState.get_set_other]

theorem pushNew_flat0 {K : Type} (st : SplitState K) (b : Bool) (s x : Segment K)
    (hx : x ∈ flatSegs (st.pushNew b s).side0) :
    x ∈ flatSegs st.side0 ∨ (b = false ∧ x = s) := by
  cases b
  · rw [side0_eq_get] at hx
    rcases (mem_pushNew_same st false s x).mp hx with h | h
    · exact Or.inl (by rw [side0_eq_get]; exact h)
    · exact Or.inr ⟨rfl, h⟩
  · rw [side0_eq_get] at hx
    have heq := pushNew_other st true s
    rw [show (!true) = false from rfl] at heq
    rw [heq] at hx
    exact Or.inl (by rw [side0_eq_get]; exact hx)

theorem pushNew_flat1 {K : Type} (st : SplitState K) (b : Bool) (s x : Segment K)
    (hx : x ∈ flatSegs (st.pushNew b s).side1) :
    x ∈ flatSegs st.side1 ∨ (b = true ∧ x = s) := by
  cases b
  · rw [side1_eq_get] at hx
    have heq := pushNew_other st false s
    rw [show (!false) = true from rfl] at heq
    rw [heq] at hx
    exact Or.inl (by rw [side1_eq_get]; exact hx)
  · rw [side1_eq_get] at hx
    rcases (mem_pushNew_same st true s x).mp hx with h | h
    · exact Or.inl (by rw [side1_eq_get]; exact h)
    · exact Or.inr ⟨rfl, h⟩

theorem push_sound_gen (angle : ℝ) (st : SplitState ℝ) (seg : Segment ℝ)
    (b : Bool) (pb : Option Bool)
    (hb0 : b = false → entryCross angle seg < 0 ∨ exitCross angle seg < 0)
    (hb1 : b = true → 0 ≤ entryCross angle seg ∧ 0 ≤ exitCross angle seg) :
    (∀ x, x ∈ flatSegs ({ st.pushSeg b seg with
        previousSide := pb } : SplitState ℝ).side0 →
      x ∈ flatSegs st.side0 ∨
        (entryCross angle x < 0 ∨ exitCross angle x < 0)) ∧
    (∀ x, x ∈ flatSegs ({ st.pushSeg b seg with
        previousSide := pb } : SplitState ℝ).side1 →
      x ∈ flatSegs st.side1 ∨
        (0 ≤ entryCross angle x ∧ 0 ≤ exitCross angle x)) := by
  constructor
  · intro x hx
    have hx' : x ∈ flatSegs (st.pushSeg b seg).side0 := hx
    rcases pushSeg_flat0 st b seg x hx' with h | ⟨rfl, rfl⟩
    · exact Or.inl h
    · exact Or.inr (hb0 rfl)
  · intro x hx
    have hx' : x ∈ flatSegs (st.pushSeg b seg).side1 := hx
    rcases pushSeg_flat1 st b seg x hx' with h | ⟨rfl, rfl⟩
    · exact Or.inl h
    · exact Or.inr (hb1 rfl)

theorem sca_ok_some_inv {p1 p2 p3 p4 : Point ℝ} {angle : ℝ} (bd : Bool)
    {c1 c2 : List (Point ℝ)}
    (h : splitCurveAtAngle p1 p2 p3 p4 angle bd = .ok (c1, some c2)) :
    ∃ t, 0 ≤ t ∧ t < 1 ∧
      (scaCoeffs p1 p2 p3 p4 angle).1.2 * t ^ 2 +
        (scaCoeffs p1 p2 p3 p4 angle).2.1.2 * t +
        (scaCoeffs p1 p2 p3 p4 angle).2.2.2 = 0 ∧
      c1 = (splitCubicAtT p1 p2 p3 p4 t).1 ∧
      c2 = (splitCubicAtT p1 p2 p3 p4 t).2 := by
  rcases hE : scaCoeffs p1 p2 p3 p4 angle with ⟨⟨ax3, ay3⟩, ⟨bx2, by2⟩, cx, cy⟩
  rcases hF : (solveQuadratic ay3 by2 cy).filter
      (fun t => if 0 ≤ t ∧ t < 1 then true else false) with _ | ⟨t, rest⟩
  · rw [sca_of_filter_nil hE bd hF] at h
    simp at h
  · cases rest with
    | cons t2 rest2 =>
        rw [sca_of_filter_cons2 hE bd hF] at h
        exact Except.noConfusion h
    | nil =>
        rw [sca_of_filter_single hE bd hF] at h
        have htmem : t ∈ (solveQuadratic ay3 by2 cy).filter
            (fun t => if 0 ≤ t ∧ t < 1 then true else false) := by
          rw [hF]
          exact List.mem_singleton.mpr rfl
        rw [List.mem_filter] at htmem
        have hbound : 0 ≤ t ∧ t < 1 := by
          have hb2 := htmem.2
          by_cases hb : 0 ≤ t ∧ t < 1
          · exact hb
          · rw [if_neg hb] at hb2
            simp at hb2
        have hroot := solveQuadratic_sound htmem.1
        by_cases hcond : bd = true ∨ ax3 * t ^ 2 + bx2 * t + cx > 0
        · rw [if_pos hcond] at h
          simp only [Except.ok.injEq, Prod.mk.injEq, Option.some.injEq] at h
          exact ⟨t, hbound.1, hbound.2, hroot, h.1.symm, h.2.symm⟩
        · rw [if_neg hcond] at h
          simp at h

theorem sca_ok_none_inv {p1 p2 p3 p4 : Point ℝ} {angle : ℝ} {c1 : List (Point ℝ)}
    (h : splitCurveAtAngle p1 p2 p3 p4 angle true = .ok (c1, none)) :
    ((solveQuadratic (scaCoeffs p1 p2 p3 p4 angle).1.2
        (scaCoeffs p1 p2 p3 p4 angle).2.1.2
        (scaCoeffs p1 p2 p3 p4 angle).2.2.2).filter
      (fun t => if 0 ≤ t ∧ t < 1 then true else false)) = [] ∧
    c1 = [p1, p2, p3, p4] := by
  rcases hE : scaCoeffs p1 p2 p3 p4 angle with ⟨⟨ax3, ay3⟩, ⟨bx2, by2⟩, cx, cy⟩
  rcases hF : (solveQuadratic ay3 by2 cy).filter
      (fun t => if 0 ≤ t ∧ t < 1 then true else false) with _ | ⟨t, rest⟩
  · rw [sca_of_filter_nil hE true hF] at h
    simp only [Except.ok.injEq, Prod.mk.injEq] at h
    exact ⟨rfl, h.1.symm⟩
  · cases rest with
    | cons t2 rest2 =>
        rw [sca_of_filter_cons2 hE true hF] at h
        exact Except.noConfusion h
    | nil =>
        rw [sca_of_filter_single hE true hF] at h
        rw [if_pos (Or.inl rfl)] at h
        simp at h

theorem splitStep_sound (angle : ℝ) (st st' : SplitState ℝ) (seg : Segment ℝ)
    (hstep : splitStep (Real.cos angle) (Real.sin angle) angle st seg = .ok st') :
    (∀ x, x ∈ flatSegs st'.side0 → x ∈ flatSegs st.side0 ∨
      (entryCross angle x < 0 ∨ exitCross angle x < 0)) ∧
    (∀ x, x ∈ flatSegs st'.side1 → x ∈ flatSegs st.side1 ∨
      (0 ≤ entryCross angle x ∧ 0 ≤ exitCross angle x)) := by
  rcases hps : seg.points with _ | ⟨p1, _ | ⟨p2, _ | ⟨p3, _ | ⟨p4, _ | ⟨p5, rest5⟩⟩⟩⟩⟩
  · simp only [splitStep, hps] at hstep
    injection hstep with h
    subst h
    exact ⟨fun x hx => Or.inl hx, fun x hx => Or.inl hx⟩
  · simp only [splitStep, hps] at hstep
    injection hstep with h
    subst h
    exact ⟨fun x hx => Or.inl hx, fun x hx => Or.inl hx⟩
  · simp only [splitStep, hps] at hstep
    injection hstep with h
    subst h
    have hentry : entryCross angle seg =
        whichSide (Real.cos angle, Real.sin angle) (p2.1 - p1.1, p2.2 - p1.2) := by
      simp only [entryCross, entryDelta, hps]
    have hexit : exitCross angle seg = entryCross angle seg := by
      simp only [exitCross, entryCross, exitDelta, entryDelta, hps]
    refine push_sound_gen angle st seg _ _ ?_ ?_
    · intro hb
      by_cases hw : 0 ≤ whichSide (Real.cos angle, Real.sin angle)
          (p2.1 - p1.1, p2.2 - p1.2)
      · rw [if_pos hw] at hb
        simp at hb
      · refine Or.inl ?_
        rw [hentry]
        exact lt_of_not_le hw
    · intro hb
      by_cases hw : 0 ≤ whichSide (Real.cos angle, Real.sin angle)
          (p2.1 - p1.1, p2.2 - p1.2)
      · refine ⟨?_, ?_⟩
        · rw [hentry]; exact hw
        · rw [hexit, hentry]; exact hw
      · rw [if_neg hw] at hb
        simp at hb
  · simp only [splitStep, hps] at hstep
    injection hstep with h
    subst h
    have hentry : entryCross angle seg =
        whichSide (Real.cos angle, Real.sin angle) (p2.1 - p1.1, p2.2 - p1.2) := by
      simp only [entryCross, entryDelta, hps]
    have hexit : exitCross angle seg = entryCross angle seg := by
      simp only [exitCross, entryCross, exitDelta, entryDelta, hps]
    refine push_sound_gen angle st seg _ _ ?_ ?_
    · intro hb
      by_cases hw : 0 ≤ whichSide (Real.cos angle, Real.sin angle)
          (p2.1 - p1.1, p2.2 - p1.2)
      · rw [if_pos hw] at hb
        simp at hb
      · refine Or.inl ?_
        rw [hentry]
        exact lt_of_not_le hw
    · intro hb
      by_cases hw : 0 ≤ whichSide (Real.cos angle, Real.sin angle)
          (p2.1 - p1.1, p2.2 - p1.2)
      · refine ⟨?_, ?_⟩
        · rw [hentry]; exact hw
        · rw [hexit, hentry]; exact hw
      · rw [if_neg hw] at hb
        simp at hb
  · -- the 4-point cubic branch
    simp only [splitStep, hps] at hstep
    by_cases h1 : 0 ≤ whichSide (Real.cos angle, Real.sin angle)
        (p2.1 - p1.1, p2.2 - p1.2) <;>
      by_cases h2 : 0 ≤ whichSide (Real.cos angle, Real.sin angle)
        (p4.1 - p3.1, p4.2 - p3.2)
    · rw [if_pos h1, if_pos h2, if_pos rfl] at hstep
      injection hstep with h
      subst h
      have hentry : entryCross angle seg =
          whichSide (Real.cos angle, Real.sin angle) (p2.1 - p1.1, p2.2 - p1.2) := by
        simp only [entryCross, entryDelta, hps]
      have hexit : exitCross angle seg =
          whichSide (Real.cos angle, Real.sin angle) (p4.1 - p3.1, p4.2 - p3.2) := by
        simp only [exitCross, exitDelta, hps]
      refine push_sound_gen angle st seg true (some true) ?_ ?_
      · intro hb
        simp at hb
      · intro _
        exact ⟨by rw [hentry]; exact h1, by rw [hexit]; exact h2⟩
    · rw [if_pos h1, if_neg h2,
        if_neg (by decide : ¬ ((true : Bool) = false))] at hstep
      cases hsca : splitCurveAtAngle p1 p2 p3 p4 angle true with
      | error e =>
          simp only [hsca] at hstep
          exact Except.noConfusion hstep
      | ok pr =>
          obtain ⟨c1, oc2⟩ := pr
          cases oc2 with
          | some c2 =>
              simp only [hsca] at hstep
              injection hstep with h
              subst h
              obtain ⟨t, ht0, ht1, hroot, hc1, hc2⟩ := sca_ok_some_inv true hsca
              subst hc1
              subst hc2
              constructor
              · intro x hx
                have hx' : x ∈ flatSegs ((st.pushSeg true
                    ⟨(splitCubicAtT p1 p2 p3 p4 t).1⟩).pushNew false
                    ⟨(splitCubicAtT p1 p2 p3 p4 t).2⟩).side0 := hx
                rcases pushNew_flat0 _ false _ x hx' with hxx | ⟨_, rfl⟩
                · rcases pushSeg_flat0 st true _ x hxx with hy | ⟨hca, _⟩
                  · exact Or.inl hy
                  · simp at hca
                · refine Or.inr (Or.inr ?_)
                  rw [split_c2_exitCross]
                  exact mul_neg_of_pos_of_neg (by linarith) (lt_of_not_le h2)
              · intro x hx
                have hx' : x ∈ flatSegs ((st.pushSeg true
                    ⟨(splitCubicAtT p1 p2 p3 p4 t).1⟩).pushNew false
                    ⟨(splitCubicAtT p1 p2 p3 p4 t).2⟩).side1 := hx
                rcases pushNew_flat1 _ false _ x hx' with hxx | ⟨hfb, _⟩
                · rcases pushSeg_flat1 st true _ x hxx with hy | ⟨_, rfl⟩
                  · exact Or.inl hy
                  · refine Or.inr ⟨?_, ?_⟩
                    · rw [split_c1_entryCross]
                      exact mul_nonneg ht0 h1
                    · rw [split_c1_exitCross, hroot]
                      norm_num
                · simp at hfb
          | none =>
              exfalso
              obtain ⟨hfil, hc1⟩ := sca_ok_none_inv hsca
              refine no_filtered_root ?_ ?_ hfil
              · rw [scaCoeffs_cy]
                exact mul_nonneg (by norm_num) h1
              · rw [scaCoeffs_sum]
                exact mul_neg_of_pos_of_neg (by norm_num) (lt_of_not_le h2)
    · rw [if_neg h1, if_pos h2,
        if_neg (by decide : ¬ ((false : Bool) = true))] at hstep
      cases hsca : splitCurveAtAngle p1 p2 p3 p4 angle true with
      | error e =>
          simp only [hsca] at hstep
          exact Except.noConfusion hstep
      | ok pr =>
          obtain ⟨c1, oc2⟩ := pr
          cases oc2 with
          | some c2 =>
              simp only [hsca] at hstep
              injection hstep with h
              subst h
              obtain ⟨t, ht0, ht1, hroot, hc1, hc2⟩ := sca_ok_some_inv true hsca
              subst hc1
              subst hc2
              have htpos : 0 < t := by
                rcases lt_or_eq_of_le ht0 with hlt | heq
                · exact hlt
                · exfalso
                  rw [← heq] at hroot
                  norm_num at hroot
                  rw [scaCoeffs_cy] at hroot
                  have hW := lt_of_not_le h1
                  linarith
              constructor
              · intro x hx
                have hx' : x ∈ flatSegs ((st.pushSeg false
                    ⟨(splitCubicAtT p1 p2 p3 p4 t).1⟩).pushNew true
                    ⟨(splitCubicAtT p1 p2 p3 p4 t).2⟩).side0 := hx
                rcases pushNew_flat0 _ true _ x hx' with hxx | ⟨hca, _⟩
                · rcases pushSeg_flat0 st false _ x hxx with hy | ⟨_, rfl⟩
                  · exact Or.inl hy
                  · refine Or.inr (Or.inl ?_)
                    rw [split_c1_entryCross]
                    exact mul_neg_of_pos_of_neg htpos (lt_of_not_le h1)
                · simp at hca
              · intro x hx
                have hx' : x ∈ flatSegs ((st.pushSeg false
                    ⟨(splitCubicAtT p1 p2 p3 p4 t).1⟩).pushNew true
                    ⟨(splitCubicAtT p1 p2 p3 p4 t).2⟩).side1 := hx
                rcases pushNew_flat1 _ true _ x hx' with hxx | ⟨_, rfl⟩
                · rcases pushSeg_flat1 st false _ x hxx with hy | ⟨hcb, _⟩
                  · exact Or.inl hy
                  · simp at hcb
                · refine Or.inr ⟨?_, ?_⟩
                  · rw [split_c2_entryCross, hroot]
                    norm_num
                  · rw [split_c2_exitCross]
                    exact mul_nonneg (by linarith) h2
          | none =>
              simp only [hsca] at hstep
              injection hstep with h
              subst h
              obtain ⟨hfil, hc1⟩ := sca_ok_none_inv hsca
              subst hc1
              refine push_sound_gen angle st ⟨[p1, p2, p3, p4]⟩ false (some false) ?_ ?_
              · intro _
                refine Or.inl ?_
                have he : entryCross angle (⟨[p1, p2, p3, p4]⟩ : Segment ℝ) =
                    whichSide (Real.cos angle, Real.sin angle)
                      (p2.1 - p1.1, p2.2 - p1.2) := by
                  simp only [entryCross, entryDelta]
                rw [he]
                exact lt_of_not_le h1
              · intro hb
                simp at hb
    · rw [if_neg h1, if_neg h2, if_pos rfl] at hstep
      injection hstep with h
      subst h
      refine push_sound_gen angle st seg false (some false) ?_ ?_
      · intro _
        refine Or.inl ?_
        have he : entryCross angle seg =
            whichSide (Real.cos angle, Real.sin angle) (p2.1 - p1.1, p2.2 - p1.2) := by
          simp only [entryCross, entryDelta, hps]
        rw [he]
        exact lt_of_not_le h1
      · intro hb
        simp at hb
  · simp only [splitStep, hps] at hstep
    injection hstep with h
    subst h
    have hentry : entryCross angle seg =
        whichSide (Real.cos angle, Real.sin angle) (p2.1 - p1.1, p2.2 - p1.2) := by
      simp only [entryCross, entryDelta, hps]
    have hexit : exitCross angle seg = entryCross angle seg := by
      simp only [exitCross, entryCross, exitDelta, entryDelta, hps]
    refine push_sound_gen angle st seg _ _ ?_ ?_
    · intro hb
      by_cases hw : 0 ≤ whichSide (Real.cos angle, Real.sin angle)
          (p2.1 - p1.1, p2.2 - p1.2)
      · rw [if_pos hw] at hb
        simp at hb
      · refine Or.inl ?_
        rw [hentry]
        exact lt_of_not_le hw
    · intro hb
      by_cases hw : 0 ≤ whichSide (Real.cos angle, Real.sin angle)
          (p2.1 - p1.1, p2.2 - p1.2)
      · refine ⟨?_, ?_⟩
        · rw [hentry]; exact hw
        · rw [hexit, hentry]; exact hw
      · rw [if_neg hw] at hb
        simp at hb

theorem C2_splitAtAngle_counterexample :
    ∃ P0 P1 : Path ℝ, sqR.splitAtAngle 0 = .ok (P0, P1) ∧
      0 ≤ whichSide (Real.cos 0, Real.sin 0)
        (entryDelta (⟨[((0 : ℝ), 0), (0, 10)]⟩ : Segment ℝ)) ∧
      (⟨[((0 : ℝ), 0), (0, 10)]⟩ : Segment ℝ) ∈
        P1.contours.flatMap Contour.segments ∧
      (⟨[((0 : ℝ), 0), (0, 10)]⟩ : Segment ℝ) ∉
        P0.contours.flatMap Contour.segments := by
  obtain ⟨P0, P1, heq, h0, h1, hcons⟩ := splitAtAngle_lines_spec sqR 0 rfl (0, 0)
    rfl rfl (by
      intro s hs
      fin_cases hs <;> exact ⟨_, _, rfl⟩)
  have hw : 0 ≤ whichSide (Real.cos 0, Real.sin 0)
      (entryDelta (⟨[((0 : ℝ), 0), (0, 10)]⟩ : Segment ℝ)) := by
    norm_num [whichSide, entryDelta, Real.cos_zero, Real.sin_zero]
  have hmem : (⟨[((0 : ℝ), 0), (0, 10)]⟩ : Segment ℝ) ∈ sqR.segments := by
    simp [sqR]
  rcases hcons _ hmem with hin0 | hin1
  · exact absurd hw (h0 _ hin0)
  · exact ⟨P0, P1, heq, hw, hin1, fun hin0 => (h0 _ hin0) hw⟩

theorem splitLoop_sound (angle : ℝ) :
    ∀ (segs : List (Segment ℝ)) (st st' : SplitState ℝ),
      splitLoop (Real.cos angle) (Real.sin angle) angle st segs = .ok st' →
      (∀ x, x ∈ flatSegs st'.side0 → x ∈ flatSegs st.side0 ∨
        (entryCross angle x < 0 ∨ exitCross angle x < 0)) ∧
      (∀ x, x ∈ flatSegs st'.side1 → x ∈ flatSegs st.side1 ∨
        (0 ≤ entryCross angle x ∧ 0 ≤ exitCross angle x)) := by
  intro segs
  induction segs with
  | nil =>
      intro st st' h
      rw [splitLoop] at h
      injection h with h2
      subst h2
      exact ⟨fun x hx => Or.inl hx, fun x hx => Or.inl hx⟩
  | cons seg rest ih =>
      intro st st' h
      cases hstep : splitStep (Real.cos angle) (Real.sin angle) angle st seg with
      | error e =>
          simp only [splitLoop, hstep] at h
          exact Except.noConfusion h
      | ok st1 =>
          simp only [splitLoop, hstep] at h
          obtain ⟨h0, h1⟩ := ih st1 st' h
          obtain ⟨g0, g1⟩ := splitStep_sound angle st st1 seg hstep
          refine ⟨?_, ?_⟩
          · intro x hx
            rcases h0 x hx with hA | hr
            · rcases g0 x hA with hB | hr2
              · exact Or.inl hB
              · exact Or.inr hr2
            · exact Or.inr hr
          · intro x hx
            rcases h1 x hx with hA | hr
            · rcases g1 x hA with hB | hr2
              · exact Or.inl hB
              · exact Or.inr hr2
            · exact Or.inr hr

theorem splitAtAngle_ok_inv (c : Contour ℝ) (angle : ℝ) (P0 P1 : Path ℝ)
    (hok : c.splitAtAngle angle = .ok (P0, P1)) :
    ∃ st : SplitState ℝ,
      splitLoop (Real.cos angle) (Real.sin angle) angle ⟨[], [], none⟩
        c.segments = .ok st ∧
      P0 = ⟨(wrapMerge st.side0).map (fun g => ⟨g, false⟩)⟩ ∧
      P1 = ⟨(wrapMerge st.side1).map (fun g => ⟨g, false⟩)⟩ := by
  rw [Contour.splitAtAngle] at hok
  by_cases hcl : c.closed ≠ true
  · rw [if_pos hcl] at hok
    exact Except.noConfusion hok
  · rw [if_neg hcl] at hok
    cases hh : c.segments.head?.bind (fun s => s.points.head?) with
    | none =>
        cases hl : c.segments.getLast?.bind (fun s => s.points.getLast?) with
        | none => simp only [hh, hl] at hok; exact Except.noConfusion hok
        | some lp => simp only [hh, hl] at hok; exact Except.noConfusion hok
    | some fp =>
        cases hl : c.segments.getLast?.bind (fun s => s.points.getLast?) with
        | none => simp only [hh, hl] at hok; exact Except.noConfusion hok
        | some lp =>
            simp only [hh, hl] at hok
            by_cases hne : fp ≠ lp
            · rw [if_pos hne] at hok
              exact Except.noConfusion hok
            · rw [if_neg hne] at hok
              cases hs : splitLoop (Real.cos angle) (Real.sin angle) angle
                  ⟨[], [], none⟩ c.segments with
              | error e =>
                  simp only [hs] at hok
                  exact Except.noConfusion hok
              | ok st =>
                  simp only [hs] at hok
                  injection hok with h
                  injection h with hP0 hP1
                  exact ⟨st, rfl, hP0.symm, hP1.symm⟩

/-- C2 (amended): whenever Contour.splitAtAngle returns normally, every
segment or sub-split piece collected into the FIRST Path has a NEGATIVE
cross product of the angle direction with at least one of its two chords
(the entry chord from points 0 to 1, or the exit chord, which is the chord
from points 2 to 3 for a 4-point cubic and the entry chord otherwise), and
every piece collected into the SECOND Path has a non-negative cross
product on both chords; at a split point the adjoining chord of each
sub-piece has cross product zero, so its side is carried by the other
chord.  In particular a whole segment with non-negative chord cross
products lands in the second Path, not the first. -/
theorem C2_splitAtAngle_amended (c : Contour ℝ) (angle : ℝ) (P0 P1 : Path ℝ)
    (hok : c.splitAtAngle angle = .ok (P0, P1)) :
    (∀ s ∈ P0.contours.flatMap Contour.segments,
      entryCross angle s < 0 ∨ exitCross angle s < 0) ∧
    (∀ s ∈ P1.contours.flatMap Contour.segments,
      0 ≤ entryCross angle s ∧ 0 ≤ exitCross angle s) := by
  obtain ⟨st, hloop, hP0, hP1⟩ := splitAtAngle_ok_inv c angle P0 P1 hok
  obtain ⟨h0, h1⟩ := splitLoop_sound angle c.segments ⟨[], [], none⟩ st hloop
  constructor
  · intro s hs
    rw [hP0] at hs
    have hs2 : s ∈ flatSegs st.side0 :=
      (mem_wrapMerge _ _).mp ((mem_pathOfGroups _ _).mp hs)
    rcases h0 s hs2 with hA | hr
    · simp [flatSegs] at hA
    · exact hr
  · intro s hs
    rw [hP1] at hs
    have hs2 : s ∈ flatSegs st.side1 :=
      (mem_wrapMerge _ _).mp ((mem_pathOfGroups _ _).mp hs)
    rcases h1 s hs2 with hA | hr
    · simp [flatSegs] at hA
    · exact hr

/-- Witness for C2 amended: the split of the concrete square at angle 0
returns normally, and the theorem applies to its two output Paths. -/
theorem C2_splitAtAngle_amended_witness :
    ∃ P0 P1 : Path ℝ, sqR.splitAtAngle 0 = .ok (P0, P1) ∧
      (∀ s ∈ P0.contours.flatMap Contour.segments,
        entryCross 0 s < 0 ∨ exitCross 0 s < 0) ∧
      (∀ s ∈ P1.contours.flatMap Contour.segments,
        0 ≤ entryCross 0 s ∧ 0 ≤ exitCross 0 s) := by
  obtain ⟨P0, P1, hok, -, -, -⟩ := splitAtAngle_lines_spec sqR 0 rfl (0, 0)
    rfl rfl (by
      intro s hs
      fin_cases hs <;> exact ⟨_, _, rfl⟩)
  obtain ⟨h0, h1⟩ := C2_splitAtAngle_amended sqR 0 P0 P1 hok
  exact ⟨P0, P1, hok, h0, h1⟩

theorem appendLast_concat {K : Type} (xs : List (List (Segment K)))
    (g : List (Segment K)) (s : Segment K) :
    appendLast (xs ++ [g]) s = xs ++ [g ++ [s]] := by
  rw [appendLast, List.getLast?_concat, List.dropLast_concat]

theorem sharpChunks_exists (l : List (Segment ℝ)) :
    ∀ s, ∃ g gs, sharpChunks s l = (s :: g) :: gs := by
  induction l with
  | nil => exact fun s => ⟨[], [], rfl⟩
  | cons u rest ih =>
      intro s
      obtain ⟨g, gs, h⟩ := ih u
      simp only [sharpChunks, h]
      by_cases hc : |whichSide (normalize (exitTangent s).1 (exitTangent s).2)
          (normalize (entryDelta u).1 (entryDelta u).2)| > 1 / 10
      · exact ⟨[], (u :: g) :: gs, by rw [if_pos hc]⟩
      · exact ⟨u :: g, gs, by rw [if_neg hc]⟩

theorem sharpChunks_flatten (l : List (Segment ℝ)) :
    ∀ s, (sharpChunks s l).flatMap id = s :: l := by
  induction l with
  | nil => intro s; simp [sharpChunks]
  | cons u rest ih =>
      intro s
      obtain ⟨g, gs, h⟩ := sharpChunks_exists rest u
      have hfl := ih u
      rw [h] at hfl
      simp only [List.flatMap_cons, id_eq, List.cons_append, List.cons.injEq,
        true_and, List.flatMap_id] at hfl
      simp only [sharpChunks, h]
      by_cases hc : |whichSide (normalize (exitTangent s).1 (exitTangent s).2)
          (normalize (entryDelta u).1 (entryDelta u).2)| > 1 / 10
      · rw [if_pos hc]
        simp [List.flatMap_cons, hfl]
      · rw [if_neg hc]
        simp [List.flatMap_cons, hfl]

theorem sharpChunks_ne_nil (l : List (Segment ℝ)) :
    ∀ s g, g ∈ sharpChunks s l → g ≠ [] := by
  induction l with
  | nil =>
      intro s g hg
      rw [sharpChunks] at hg
      rcases List.mem_singleton.mp hg with rfl
      simp
  | cons u rest ih =>
      intro s g hg
      obtain ⟨g', gs', h⟩ := sharpChunks_exists rest u
      simp only [sharpChunks, h] at hg
      by_cases hc : |whichSide (normalize (exitTangent s).1 (exitTangent s).2)
          (normalize (entryDelta u).1 (entryDelta u).2)| > 1 / 10
      · rw [if_pos hc] at hg
        rcases List.mem_cons.mp hg with rfl | hg2
        · simp
        · exact ih u g (h ▸ hg2)
      · rw [if_neg hc] at hg
        rcases List.mem_cons.mp hg with rfl | hg2
        · simp
        · exact ih u g (h ▸ List.mem_cons_of_mem _ hg2)

theorem sharpChunks_chain_within (l : List (Segment ℝ)) :
    ∀ s g, g ∈ sharpChunks s l →
      g.Chain' (fun a b => ¬ SharpCorner a b) := by
  induction l with
  | nil =>
      intro s g hg
      rw [sharpChunks] at hg
      rcases List.mem_singleton.mp hg with rfl
      exact List.chain'_singleton s
  | cons u rest ih =>
      intro s g hg
      obtain ⟨g', gs', h⟩ := sharpChunks_exists rest u
      simp only [sharpChunks, h] at hg
      by_cases hc : |whichSide (normalize (exitTangent s).1 (exitTangent s).2)
          (normalize (entryDelta u).1 (entryDelta u).2)| > 1 / 10
      · rw [if_pos hc] at hg
        rcases List.mem_cons.mp hg with rfl | hg2
        · exact List.chain'_singleton s
        · exact ih u g (h ▸ hg2)
      · rw [if_neg hc] at hg
        rcases List.mem_cons.mp hg with rfl | hg2
        · refine List.chain'_cons.mpr ⟨hc, ?_⟩
          exact ih u (u :: g') (h ▸ List.mem_cons_self _ _)
        · exact ih u g (h ▸ List.mem_cons_of_mem _ hg2)

theorem sharpChunks_chain_between (l : List (Segment ℝ)) :
    ∀ s, (sharpChunks s l).Chain' SharpJunction := by
  induction l with
  | nil =>
      intro s
      rw [sharpChunks]
      exact List.chain'_singleton [s]
  | cons u rest ih =>
      intro s
      obtain ⟨g', gs', h⟩ := sharpChunks_exists rest u
      have hch := ih u
      rw [h] at hch
      simp only [sharpChunks, h]
      by_cases hc : |whichSide (normalize (exitTangent s).1 (exitTangent s).2)
          (normalize (entryDelta u).1 (entryDelta u).2)| > 1 / 10
      · rw [if_pos hc]
        refine List.chain'_cons.mpr ⟨⟨s, u, rfl, rfl, hc⟩, hch⟩
      · rw [if_neg hc]
        rcases List.chain'_cons'.mp hch with ⟨hhead, htail⟩
        refine List.chain'_cons'.mpr ⟨?_, htail⟩
        intro b hb
        obtain ⟨a, b', hlast, hhd, hsharp⟩ := hhead b hb
        exact ⟨a, b', by rw [List.getLast?_cons_cons]; exact hlast, hhd, hsharp⟩

theorem sharpLoop_bridge (rest : List (Segment ℝ)) :
    ∀ (prev : Segment ℝ) (pre : List (List (Segment ℝ)))
      (g h : List (Segment ℝ)) (t : List (List (Segment ℝ))),
      sharpChunks prev rest = h :: t →
      sharpLoop (pre ++ [g ++ [prev]]) (some (exitTangent prev)) rest =
        pre ++ ((g ++ h) :: t) := by
  induction rest with
  | nil =>
      intro prev pre g h t hch
      rw [sharpChunks] at hch
      injection hch with h1 h2
      subst h1
      subst h2
      simp [sharpLoop]
  | cons u rs ih =>
      intro prev pre g h t hch
      obtain ⟨g', gs', hu⟩ := sharpChunks_exists rs u
      simp only [sharpChunks, hu] at hch
      simp only [sharpLoop]
      by_cases hc : |whichSide (normalize (exitTangent prev).1 (exitTangent prev).2)
          (normalize (entryDelta u).1 (entryDelta u).2)| > 1 / 10
      · rw [if_pos hc] at hch ⊢
        injection hch with h1 h2
        subst h1
        subst h2
        rw [appendLast_concat (pre ++ [g ++ [prev]]) [] u,
          show exitDelta u (entryDelta u) = exitTangent u from rfl,
          ih u (pre ++ [g ++ [prev]]) [] (u :: g') gs' hu]
        simp
      · rw [if_neg hc] at hch ⊢
        injection hch with h1 h2
        subst h1
        subst h2
        rw [show pre ++ [g ++ [prev]] = pre ++ [g ++ [prev]] from rfl,
          appendLast_concat pre (g ++ [prev]) u,
          show exitDelta u (entryDelta u) = exitTangent u from rfl,
          ih u pre (g ++ [prev]) (u :: g') gs' hu]
        simp

theorem sharpLoop_eq_chunks (s : Segment ℝ) (rest : List (Segment ℝ)) :
    sharpLoop [[]] none (s :: rest) = sharpChunks s rest := by
  obtain ⟨g', gs', h⟩ := sharpChunks_exists rest s
  simp only [sharpLoop]
  rw [h]
  have hb := sharpLoop_bridge rest s [] [] (s :: g') gs' h
  simpa using hb

/-- C9: splitAtSharpCorners on an open contour with at least one segment
returns a Path of open contours whose segment lists, concatenated in
order, are exactly the input segments; every group is non-empty; within
each group no consecutive pair forms a sharp corner (normalized-tangent
cross product above 0.1 in magnitude); and every junction between
consecutive groups is a sharp corner. -/
theorem C9_splitAtSharpCorners (c : Contour ℝ) (hopen : c.closed = false)
    (s0 : Segment ℝ) (rest : List (Segment ℝ))
    (hsegs : c.segments = s0 :: rest) :
    ∃ groups : List (List (Segment ℝ)),
      c.splitAtSharpCorners = .ok ⟨groups.map (fun g => ⟨g, false⟩)⟩ ∧
      groups.flatMap id = c.segments ∧
      (∀ g ∈ groups, g ≠ []) ∧
      (∀ g ∈ groups, g.Chain' (fun a b => ¬ SharpCorner a b)) ∧
      groups.Chain' SharpJunction := by
  refine ⟨sharpChunks s0 rest, ?_, ?_, ?_, ?_, ?_⟩
  · rw [Contour.splitAtSharpCorners, if_neg (by simp [hopen]), hsegs,
      sharpLoop_eq_chunks]
  · rw [hsegs]
    exact sharpChunks_flatten rest s0
  · exact fun g hg => sharpChunks_ne_nil rest s0 g hg
  · exact fun g hg => sharpChunks_chain_within rest s0 g hg
  · exact sharpChunks_chain_between rest s0

/-- Witness for C9 at a concrete L-shaped open contour of two lines. -/
theorem C9_splitAtSharpCorners_witness :
    ∃ groups : List (List (Segment ℝ)),
      (Contour.mk [⟨[((0 : ℝ), 0), (1, 0)]⟩, ⟨[((1 : ℝ), 0), (1, 1)]⟩]
          false).splitAtSharpCorners =
        .ok ⟨groups.map (fun g => ⟨g, false⟩)⟩ ∧
      groups.flatMap id =
        (Contour.mk [⟨[((0 : ℝ), 0), (1, 0)]⟩, ⟨[((1 : ℝ), 0), (1, 1)]⟩]
          false).segments ∧
      (∀ g ∈ groups, g ≠ []) ∧
      (∀ g ∈ groups, g.Chain' (fun a b => ¬ SharpCorner a b)) ∧
      groups.Chain' SharpJunction :=
  C9_splitAtSharpCorners _ rfl ⟨[((0 : ℝ), 0), (1, 0)]⟩
    [⟨[((1 : ℝ), 0), (1, 1)]⟩] rfl

end PathTools
